import Mathlib

/-!
# SHA-256 benchmark harness (`sha256/bench/bench.c`)

A shallow embedding of the benchmark driver: the two timing macros
`BENCH_SIZE_1W` and `BENCH_SIZE_NW`, the runners `bench_1w` and `bench_Nw`,
the two table printers and `main`.

* C integers are `ℕ`/`ℤ` with explicit wrap-around (`toU64`, `toLong`, `toInt32`).
* `double` is binary64 with round-to-nearest-even, restricted to the
  non-negative values the program can produce (all operands come from
  unsigned counters): a finite value is the rational it denotes.
* The heap, the capability word `c[1]`, the number of timed calls and the
  sequence of externally visible actions are explicit state (`Machine`).
* The measured cycle counts come from outside the program and are a
  parameter (`World`).

Fixed banner lines written with `printf` carry no data and are left out.
-/

namespace Bench

/-! ## Machine integers -/

/-- Conversion of a C integer value to `uint64_t` / `unsigned long`. -/
def toU64 (x : ℤ) : ℕ := (x % 2 ^ 64).toNat

/-- Conversion of an `unsigned long` value to `long` (two's complement). -/
def toLong (x : ℕ) : ℤ :=
  if x % 2 ^ 64 < 2 ^ 63 then ((x % 2 ^ 64 : ℕ) : ℤ) else ((x % 2 ^ 64 : ℕ) : ℤ) - 2 ^ 64

/-- Wrap-around of a value to `int` (32 bits, two's complement). -/
def toInt32 (x : ℤ) : ℤ :=
  if x % 2 ^ 32 < 2 ^ 31 then x % 2 ^ 32 else x % 2 ^ 32 - 2 ^ 32

/-- The expression `1 << it` on `int`. C defines it for `it ≤ 30`; the result is
wrapped to 32 bits beyond that. -/
def shl1 (it : ℕ) : ℤ := toInt32 (2 ^ it)

/-- The configured number of message sizes: `#define MAX_SIZE_BITS 7`. -/
def MAX_SIZE_BITS : ℕ := 7

/-- The expression `512-it*20`, computed on `unsigned long` and stored in the
`long` variable `BENCH_TIMES`. -/
def benchTimes (it : ℕ) : ℤ := toLong (toU64 (512 - (it : ℤ) * 20))

/-! ## binary64 arithmetic on non-negative values -/

/-- A non-negative `double`: a finite value, `+∞`, or a NaN. -/
inductive F64 where
  | fin (q : ℚ)
  | inf
  | nan
  deriving DecidableEq, Repr

/-- Nearest integer, ties to the even one. -/
def roundNE (x : ℚ) : ℤ :=
  let f := ⌊x⌋
  let r := x - f
  if r < 1 / 2 then f
  else if 1 / 2 < r then f + 1
  else if f % 2 = 0 then f else f + 1

/-- Rounding of a non-negative real result to binary64 (53-bit significand, least normal
exponent -1022, round to nearest even, overflow to `+∞`). -/
def F64.round (q : ℚ) : F64 :=
  if q = 0 then .fin 0
  else
    let e := max (Int.log 2 q) (-1022)
    let ulp : ℚ := 2 ^ (e - 52)
    let r := roundNE (q / ulp) * ulp
    if (2 : ℚ) ^ (1024 : ℕ) ≤ r then .inf else .fin r

/-- The conversion `(double) x` of a `uint64_t`. -/
def F64.ofU64 (x : ℕ) : F64 := F64.round (x : ℚ)

/-- The product `a * b` on `double`. -/
def F64.mul : F64 → F64 → F64
  | .nan, _ => .nan
  | _, .nan => .nan
  | .inf, .fin b => if b = 0 then .nan else .inf
  | .fin a, .inf => if a = 0 then .nan else .inf
  | .inf, .inf => .inf
  | .fin a, .fin b => F64.round (a * b)

/-- The quotient `a / b` on `double` with the default (non-trapping) handling of
division by zero: `x / 0` is `+∞` for `x > 0` and `0 / 0` is a NaN. -/
def F64.div : F64 → F64 → F64
  | .nan, _ => .nan
  | _, .nan => .nan
  | .inf, .inf => .nan
  | .inf, .fin _ => .inf
  | .fin _, .inf => .fin 0
  | .fin a, .fin b => if b = 0 then (if a = 0 then .nan else .inf) else F64.round (a / b)

/-- What `printf` writes for a `%9.2f` argument: the number of hundredths nearest the exact
value of the double (ties to even), or the text for an infinity or a NaN. -/
inductive Shown where
  | num (hundredths : ℤ)
  | inf
  | nan
  deriving DecidableEq, Repr

/-- The `%9.2f` conversion. -/
def fmt2 : F64 → Shown
  | .fin q => .num (roundNE (q * 100))
  | .inf => .inf
  | .nan => .nan

/-- The characters of a `%.2f` field (without the padding to nine columns). The only NaN
the program can produce is the result of `0.0 / 0.0`, which on x86-64 is the default NaN
with the sign bit set; glibc writes it as `-nan`. -/
def Shown.text : Shown → String
  | .num h =>
    toString (h / 100) ++ "." ++ (if h % 100 < 10 then "0" else "") ++ toString (h % 100)
  | .inf => "inf"
  | .nan => "-nan"

/-! ## Tables -/

/-- The record `struct seqTimings`. -/
structure seqTimings where
  size : ℕ
  openssl : ℕ
  shani : ℕ
  deriving DecidableEq, Repr

/-- The record `struct parallelTimings`. -/
structure parallelTimings where
  size : ℕ
  _1x : ℕ
  _2x : ℕ
  _4x : ℕ
  _8x : ℕ
  deriving DecidableEq, Repr

/-- The Speedup argument of `print_tableSeq`:
`table[i].openssl / (double) table[i].shani`. -/
def seqSpeedup (r : seqTimings) : F64 :=
  F64.div (F64.ofU64 r.openssl) (F64.ofU64 r.shani)

/-- One body line of the sequential table: the three `%9ld` fields (a `uint64_t` read as
`long`) and the `%9.2f` field. -/
structure SeqLine where
  size : ℤ
  openssl : ℤ
  shani : ℤ
  speedup : Shown
  deriving DecidableEq, Repr

/-- The line printed for one row by `print_tableSeq`. -/
def seqLine (r : seqTimings) : SeqLine :=
  ⟨toLong r.size, toLong r.openssl, toLong r.shani, fmt2 (seqSpeedup r)⟩

/-- The loop of `print_tableSeq(table, items)`: one line per row `0 ≤ i < items`. -/
def print_tableSeq (table : ℕ → seqTimings) (items : ℕ) : List SeqLine :=
  (List.range items).map (fun i => seqLine (table i))

/-- The four columns of the parallel table. -/
inductive Degree where
  | x1
  | x2
  | x4
  | x8
  deriving DecidableEq, Repr

/-- The number of messages hashed together in a column. -/
def Degree.n : Degree → ℕ
  | .x1 => 1
  | .x2 => 2
  | .x4 => 4
  | .x8 => 8

/-- The field of a row that holds a column's cycle count. -/
def Degree.cycles : Degree → parallelTimings → ℕ
  | .x1, r => r._1x
  | .x2, r => r._2x
  | .x4, r => r._4x
  | .x8, r => r._8x

/-- The speedup argument of `print_tableParallel` for one column:
`N.0*table[i]._1x/(double)table[i]._Nx`, a product followed by a quotient. -/
def parSpeedup (d : Degree) (r : parallelTimings) : F64 :=
  F64.div (F64.mul (.fin d.n) (F64.ofU64 r._1x)) (F64.ofU64 (d.cycles r))

/-- One body line of the parallel table. -/
structure ParLine where
  size : ℤ
  s1x : Shown
  s2x : Shown
  s4x : Shown
  s8x : Shown
  deriving DecidableEq, Repr

/-- The line printed for one row by `print_tableParallel`. -/
def parLine (r : parallelTimings) : ParLine :=
  ⟨toLong r.size, fmt2 (parSpeedup .x1 r), fmt2 (parSpeedup .x2 r),
    fmt2 (parSpeedup .x4 r), fmt2 (parSpeedup .x8 r)⟩

/-- The loop of `print_tableParallel(table, items)`. -/
def print_tableParallel (table : ℕ → parallelTimings) (items : ℕ) : List ParLine :=
  (List.range items).map (fun i => parLine (table i))

/-! ## The machine -/

/-- The hash routines the harness times. -/
inductive Func where
  | SHA256
  | sha256_update_shani
  | sha256_x2_update_shani_2x
  | sha256_x4_update_shani_4x
  | sha256_x8_update_shani_8x
  deriving DecidableEq, Repr

/-- The digest argument of a timed call: the 32-byte array on the runner's stack, or the
heap buffers of a multi-buffer pass. -/
inductive Digest where
  | stack
  | heap (bufs : List ℕ)
  deriving DecidableEq, Repr

/-- A use of `CLOCKS(FUNC(message,message_size,digest))`: the routine, the heap buffers
passed as message(s), the length, the digest argument, the value of `BENCH_TIMES` in
scope and the capability word `c[1]` at that moment. -/
structure ClockCall where
  func : Func
  message : List ℕ
  message_size : ℤ
  digest : Digest
  BENCH_TIMES : ℤ
  cap : ℕ
  deriving DecidableEq, Repr

/-- The actions of the harness that are visible outside it, in program order. -/
inductive Event where
  | malloc (buf : ℕ) (bytes : ℕ)
  | random_bytes (buf : ℕ) (bytes : ℕ)
  | clocks (call : ClockCall) (CYCLES : ℤ)
  | free (buf : ℕ)
  | capStore (v : ℕ)
  | tableSeq (lines : List SeqLine)
  | tableParallel (lines : List ParLine)
  deriving DecidableEq, Repr

/-- Program state: the capability word `c[1]` behind `OPENSSL_ia32cap_loc()`, the next
fresh heap buffer, the buffers allocated and not yet freed, the number of timed calls
made so far, and the actions so far. -/
structure Machine where
  cap : ℕ
  next : ℕ
  live : List ℕ
  calls : ℕ
  trace : List Event
  deriving DecidableEq, Repr

/-- Modelled from the spec: the macro `CLOCKS` of `clocks.h`, which is not part of the
sources. Per §4.1 it runs the work `BENCH_TIMES` times and leaves the elapsed cycles in
`CYCLES`; the cycles the `k`-th use measures are given from outside. -/
structure World where
  cycles : ℕ → ClockCall → ℤ

/-- The call `_mm_malloc(bytes, ALIGN_BYTES)`: a fresh buffer (allocation is taken to
succeed, the harness does not test the result). -/
def _mm_malloc (bytes : ℕ) (m : Machine) : ℕ × Machine :=
  (m.next, { m with next := m.next + 1, live := m.live ++ [m.next],
                    trace := m.trace ++ [.malloc m.next bytes] })

/-- The call `_mm_free(p)`. -/
def _mm_free (p : ℕ) (m : Machine) : Machine :=
  { m with live := m.live.erase p, trace := m.trace ++ [.free p] }

/-- The call `random_bytes(p, bytes)`. -/
def random_bytes (p : ℕ) (bytes : ℕ) (m : Machine) : Machine :=
  { m with trace := m.trace ++ [.random_bytes p bytes] }

/-- One use of `CLOCKS(...)`: returns the value left in `CYCLES`. -/
def CLOCKS (W : World) (call : ClockCall) (m : Machine) : ℤ × Machine :=
  (W.cycles m.calls call,
    { m with calls := m.calls + 1, trace := m.trace ++ [.clocks call (W.cycles m.calls call)] })

/-- The body shared by the size loops of `BENCH_SIZE_1W` and `BENCH_SIZE_NW`:
`message_size = 1<<it; BENCH_TIMES = 512-it*20; CLOCKS(FUNC(message,message_size,digest));
table[it].size = message_size; table[it].IMPL = CYCLES;`. -/
def sizeStep {Row : Type} (W : World) (FUNC : Func) (message : List ℕ) (digest : Digest)
    (setSize IMPL : Row → ℕ → Row) (s : Machine × (ℕ → Row)) (it : ℕ) :
    Machine × (ℕ → Row) :=
  let message_size := shl1 it
  let BENCH_TIMES := benchTimes it
  let c := CLOCKS W ⟨FUNC, message, message_size, digest, BENCH_TIMES, s.1.cap⟩ s.1
  let table := Function.update s.2 it (setSize (s.2 it) (toU64 message_size))
  (c.2, Function.update table it (IMPL (table it) (toU64 c.1)))

/-- The macro `BENCH_SIZE_1W(FUNC, IMPL)`, expanded where `message` is one heap buffer and
`digest` the stack array; `IMPL` is the store into the named column. -/
def BENCH_SIZE_1W {Row : Type} (W : World) (maxBits : ℕ) (FUNC : Func) (message : ℕ)
    (setSize IMPL : Row → ℕ → Row) (s : Machine × (ℕ → Row)) : Machine × (ℕ → Row) :=
  (List.range maxBits).foldl (sizeStep W FUNC [message] .stack setSize IMPL) s

/-- Store into the field `size`. -/
def seqTimings.setSize (r : seqTimings) (v : ℕ) : seqTimings := { r with size := v }

/-- Store into the field `openssl`. -/
def seqTimings.setOpenssl (r : seqTimings) (v : ℕ) : seqTimings := { r with openssl := v }

/-- Store into the field `shani`. -/
def seqTimings.setShani (r : seqTimings) (v : ℕ) : seqTimings := { r with shani := v }

/-- Store into the field `size`. -/
def parallelTimings.setSize (r : parallelTimings) (v : ℕ) : parallelTimings :=
  { r with size := v }

/-- Store into the column of a degree (the pasted name `_ ## N ## x`). -/
def Degree.set : Degree → parallelTimings → ℕ → parallelTimings
  | .x1, r, v => { r with _1x := v }
  | .x2, r, v => { r with _2x := v }
  | .x4, r, v => { r with _4x := v }
  | .x8, r, v => { r with _8x := v }

/-- The first loop of `BENCH_SIZE_NW`: one step allocates `message[it]` and `digest[it]`
and fills the message with random bytes. The state carries the two pointer arrays. -/
def allocStep (MAX_SIZE : ℕ) (s : Machine × List ℕ × List ℕ) (_it : ℕ) :
    Machine × List ℕ × List ℕ :=
  let a := _mm_malloc MAX_SIZE s.1
  let b := _mm_malloc 32 a.2
  (random_bytes a.1 MAX_SIZE b.2, s.2.1 ++ [a.1], s.2.2 ++ [b.1])

/-- The last loop of `BENCH_SIZE_NW`: `_mm_free(message[it]); _mm_free(digest[it]);`. -/
def freeStep (m : Machine) (p : ℕ × ℕ) : Machine :=
  _mm_free p.2 (_mm_free p.1 m)

/-- The macro `BENCH_SIZE_NW(FUNC, N)`, with `N` given as a column. -/
def BENCH_SIZE_NW (W : World) (maxBits : ℕ) (FUNC : Func) (N : Degree)
    (s : Machine × (ℕ → parallelTimings)) : Machine × (ℕ → parallelTimings) :=
  let MAX_SIZE := toU64 (shl1 maxBits)
  let a := (List.range N.n).foldl (allocStep MAX_SIZE) (s.1, [], [])
  let message := a.2.1
  let digest := a.2.2
  let b := (List.range maxBits).foldl
    (sizeStep W FUNC message (.heap digest) parallelTimings.setSize N.set) (a.1, s.2)
  ((message.zip digest).foldl freeStep b.1, b.2)

/-- The runner `bench_Nw`, with the number of sizes as a parameter and the initial
(uninitialised) contents of its local table given. Returns the final state and the table
handed to `print_tableParallel`. -/
def bench_Nw (W : World) (maxBits : ℕ) (table : ℕ → parallelTimings) (m : Machine) :
    Machine × (ℕ → parallelTimings) :=
  let MAX_SIZE := toU64 (shl1 maxBits)
  let a := _mm_malloc MAX_SIZE m
  let message := a.1
  let s1 := BENCH_SIZE_1W W maxBits .sha256_update_shani message
    parallelTimings.setSize Degree.x1.set (a.2, table)
  let s2 := BENCH_SIZE_NW W maxBits .sha256_x2_update_shani_2x .x2 s1
  let s4 := BENCH_SIZE_NW W maxBits .sha256_x4_update_shani_4x .x4 s2
  let s8 := BENCH_SIZE_NW W maxBits .sha256_x8_update_shani_8x .x8 s4
  ({ s8.1 with trace := s8.1.trace ++ [.tableParallel (print_tableParallel s8.2 maxBits)] },
    s8.2)

/-- The statement `c[1] &= 0x10000000;`. -/
def disableShani (m : Machine) : Machine :=
  { m with cap := m.cap &&& 0x10000000, trace := m.trace ++ [.capStore (m.cap &&& 0x10000000)] }

/-- The runner `bench_1w`, with the number of sizes as a parameter and the initial
(uninitialised) contents of its local table given. Returns the final state and the table
handed to `print_tableSeq`. -/
def bench_1w (W : World) (maxBits : ℕ) (table : ℕ → seqTimings) (m : Machine) :
    Machine × (ℕ → seqTimings) :=
  let MAX_SIZE := toU64 (shl1 maxBits)
  let a := _mm_malloc MAX_SIZE m
  let message := a.1
  let s1 := BENCH_SIZE_1W W maxBits .SHA256 message
    seqTimings.setSize seqTimings.setOpenssl (a.2, table)
  let s2 := BENCH_SIZE_1W W maxBits .SHA256 message
    seqTimings.setSize seqTimings.setOpenssl (disableShani s1.1, s1.2)
  let s3 := BENCH_SIZE_1W W maxBits .sha256_update_shani message
    seqTimings.setSize seqTimings.setShani s2
  let p : Machine :=
    { s3.1 with trace := s3.1.trace ++ [.tableSeq (print_tableSeq s3.2 maxBits)] }
  (_mm_free message p, s3.2)

/-- The function `main`: `bench_1w(); bench_Nw();` with the configured `MAX_SIZE_BITS`. -/
def main (W : World) (seq0 : ℕ → seqTimings) (par0 : ℕ → parallelTimings) (m : Machine) :
    Machine :=
  (bench_Nw W MAX_SIZE_BITS par0 (bench_1w W MAX_SIZE_BITS seq0 m).1).1

/-- A machine at program start: nothing allocated, nothing timed, nothing done yet, and
the capability word holding `w`. -/
def Machine.start (w : ℕ) : Machine := ⟨w, 0, [], 0, []⟩

/-- The setting of the end-to-end scenario: the baseline routine always measures 100
cycles and every other routine 25. -/
def scenarioWorld : World :=
  ⟨fun _ call => if call.func = .SHA256 then 100 else 25⟩


/-! ## Closed forms of the loops (used to state and prove the properties) -/

/-- The call made at index `it` of a size loop started with capability word `cap`. -/
def sizeCall (FUNC : Func) (message : List ℕ) (digest : Digest) (cap : ℕ) (it : ℕ) :
    ClockCall :=
  ⟨FUNC, message, shl1 it, digest, benchTimes it, cap⟩

/-- The timed calls of a size loop of `n` steps started after `calls` earlier calls. -/
def sizeEvents (W : World) (FUNC : Func) (message : List ℕ) (digest : Digest)
    (cap calls n : ℕ) : List Event :=
  (List.range n).map (fun i =>
    .clocks (sizeCall FUNC message digest cap i)
      (W.cycles (calls + i) (sizeCall FUNC message digest cap i)))

/-- The pairs `(message[j], digest[j])` a `BENCH_SIZE_NW` expansion allocates when the next
fresh buffer is `next`. -/
def nwPairs (next N : ℕ) : List (ℕ × ℕ) :=
  (List.range N).map (fun j => (next + 2 * j, next + 2 * j + 1))

/-- The actions of the allocation loop of `BENCH_SIZE_NW`. -/
def allocEvents (MAX_SIZE : ℕ) (ps : List (ℕ × ℕ)) : List Event :=
  ps.flatMap (fun p => [.malloc p.1 MAX_SIZE, .malloc p.2 32, .random_bytes p.1 MAX_SIZE])

/-- The actions of the release loop of `BENCH_SIZE_NW`. -/
def freeEvents (ps : List (ℕ × ℕ)) : List Event :=
  ps.flatMap (fun p => [.free p.1, .free p.2])

/-- The buffers of a list of pairs, in allocation order. -/
def pairBufs (ps : List (ℕ × ℕ)) : List ℕ :=
  ps.flatMap (fun p => [p.1, p.2])

/-- No live buffer has an identity the allocator has yet to hand out. -/
def Machine.wf (m : Machine) : Prop := ∀ p ∈ m.live, p < m.next

/-- The actions of one `BENCH_SIZE_NW` expansion started in a state with capability word
`cap`, `calls` earlier timed calls and next fresh buffer `next`. -/
def nwEvents (W : World) (maxBits : ℕ) (FUNC : Func) (N : Degree) (cap calls next : ℕ) :
    List Event :=
  allocEvents (toU64 (shl1 maxBits)) (nwPairs next N.n)
    ++ sizeEvents W FUNC ((nwPairs next N.n).map Prod.fst)
        (.heap ((nwPairs next N.n).map Prod.snd)) cap calls maxBits
    ++ freeEvents (nwPairs next N.n)

/-- The timed call of column `d` at index `i` in a run of `bench_Nw` started in `m`. -/
def nwCall (m : Machine) (d : Degree) (i : ℕ) : ClockCall :=
  match d with
  | .x1 => sizeCall .sha256_update_shani [m.next] .stack m.cap i
  | .x2 => sizeCall .sha256_x2_update_shani_2x ((nwPairs (m.next + 1) 2).map Prod.fst)
      (.heap ((nwPairs (m.next + 1) 2).map Prod.snd)) m.cap i
  | .x4 => sizeCall .sha256_x4_update_shani_4x ((nwPairs (m.next + 1 + 4) 4).map Prod.fst)
      (.heap ((nwPairs (m.next + 1 + 4) 4).map Prod.snd)) m.cap i
  | .x8 => sizeCall .sha256_x8_update_shani_8x ((nwPairs (m.next + 1 + 4 + 8) 8).map Prod.fst)
      (.heap ((nwPairs (m.next + 1 + 4 + 8) 8).map Prod.snd)) m.cap i

/-- The actions taken between state `before` and a later state `after`. -/
def newEvents (before after : Machine) : List Event :=
  after.trace.drop before.trace.length

/-- The timed calls among a list of actions, each with the cycles it measured. -/
def timedCalls : List Event → List (ClockCall × ℤ)
  | [] => []
  | .clocks c y :: es => (c, y) :: timedCalls es
  | .malloc _ _ :: es => timedCalls es
  | .random_bytes _ _ :: es => timedCalls es
  | .free _ :: es => timedCalls es
  | .capStore _ :: es => timedCalls es
  | .tableSeq _ :: es => timedCalls es
  | .tableParallel _ :: es => timedCalls es

/-- The routine timed in a column of the parallel table. -/
def Degree.func : Degree → Func
  | .x1 => .sha256_update_shani
  | .x2 => .sha256_x2_update_shani_2x
  | .x4 => .sha256_x4_update_shani_4x
  | .x8 => .sha256_x8_update_shani_8x

/-- The timed calls of column `d` in a run of `bench_Nw` over `n` sizes started in `m`,
the first of them being timed call number `calls`. -/
def colTimed (W : World) (m : Machine) (d : Degree) (calls n : ℕ) : List (ClockCall × ℤ) :=
  (List.range n).map (fun i => (nwCall m d i, W.cycles (calls + i) (nwCall m d i)))

/-- The values stored to the capability word `c[1]` among a list of actions, in order. -/
def capStores : List Event → List ℕ
  | [] => []
  | .capStore v :: es => v :: capStores es
  | .clocks _ _ :: es => capStores es
  | .malloc _ _ :: es => capStores es
  | .random_bytes _ _ :: es => capStores es
  | .free _ :: es => capStores es
  | .tableSeq _ :: es => capStores es
  | .tableParallel _ :: es => capStores es

/-- The buffers filled by `random_bytes` among a list of actions, each with the number of
bytes written. -/
def fills : List Event → List (ℕ × ℕ)
  | [] => []
  | .random_bytes p n :: es => (p, n) :: fills es
  | .clocks _ _ :: es => fills es
  | .malloc _ _ :: es => fills es
  | .capStore _ :: es => fills es
  | .free _ :: es => fills es
  | .tableSeq _ :: es => fills es
  | .tableParallel _ :: es => fills es

/-! ## Rounding -/

theorem roundNE_intCast (n : ℤ) : roundNE (n : ℚ) = n := by
  simp [roundNE]

theorem roundNE_sub_le (x : ℚ) : |(roundNE x : ℚ) - x| ≤ 1 / 2 := by
  have h0 := Int.floor_le x
  have h1 := Int.lt_floor_add_one x
  unfold roundNE
  simp only
  split_ifs with ha hb hc
  · rw [abs_le]; constructor <;> linarith
  · rw [abs_le]; push_cast; constructor <;> linarith
  · rw [abs_le]; constructor <;> linarith
  · rw [abs_le]; push_cast; constructor <;> linarith

theorem two_zpow_pos (k : ℤ) : (0 : ℚ) < 2 ^ k := zpow_pos (by norm_num) k

/-- In the normal range rounding gives a finite value `s * 2^k` with `s ≤ 2^53`, within
relative error `2^-53` of the argument. -/
theorem F64.round_repr (q : ℚ) (hlo : (2 : ℚ) ^ (-1022 : ℤ) ≤ q) (hhi : q < 2 ^ (1023 : ℤ)) :
    ∃ (v : ℚ) (s : ℕ) (k : ℤ), F64.round q = .fin v ∧ |v - q| ≤ q / 2 ^ 53 ∧
      v = (s : ℚ) * 2 ^ k ∧ s ≤ 2 ^ 53 := by
  have hq : 0 < q := lt_of_lt_of_le (two_zpow_pos _) hlo
  have hle : (-1022 : ℤ) ≤ Int.log 2 q :=
    (Int.zpow_le_iff_le_log (b := 2) (by norm_num) hq (x := -1022)).1 (by exact_mod_cast hlo)
  have h1 : (2 : ℚ) ^ (Int.log 2 q) ≤ q := by
    have := Int.zpow_log_le_self (b := 2) (by norm_num) hq
    exact_mod_cast this
  have h2 : q < (2 : ℚ) ^ (Int.log 2 q + 1) := by
    have := Int.lt_zpow_succ_log_self (b := 2) (by norm_num) q
    exact_mod_cast this
  have hmax : max (Int.log 2 q) (-1022) = Int.log 2 q := max_eq_left hle
  have hulp : (0 : ℚ) < 2 ^ (Int.log 2 q - 52) := two_zpow_pos _
  have hr := roundNE_sub_le (q / 2 ^ (Int.log 2 q - 52))
  have he : (2 : ℚ) ^ (Int.log 2 q) = 2 ^ (Int.log 2 q - 52) * 2 ^ 52 := by
    rw [← zpow_natCast (2 : ℚ) 52, ← zpow_add₀ (by norm_num : (2 : ℚ) ≠ 0)]
    norm_num
  have he1 : (2 : ℚ) ^ (Int.log 2 q + 1) = 2 ^ (Int.log 2 q - 52) * 2 ^ 53 := by
    rw [← zpow_natCast (2 : ℚ) 53, ← zpow_add₀ (by norm_num : (2 : ℚ) ≠ 0)]
    congr 1
    push_cast
    ring
  have hx1 : (2 : ℚ) ^ 52 ≤ q / 2 ^ (Int.log 2 q - 52) := by
    rw [le_div_iff₀ hulp, mul_comm, ← he]; exact h1
  have hx2 : q / 2 ^ (Int.log 2 q - 52) < 2 ^ 53 := by
    rw [div_lt_iff₀ hulp, mul_comm, ← he1]; exact h2
  have hdiff : (roundNE (q / 2 ^ (Int.log 2 q - 52)) : ℚ) * 2 ^ (Int.log 2 q - 52) - q
      = ((roundNE (q / 2 ^ (Int.log 2 q - 52)) : ℚ) - q / 2 ^ (Int.log 2 q - 52))
        * 2 ^ (Int.log 2 q - 52) := by
    field_simp
  have habs : |(roundNE (q / 2 ^ (Int.log 2 q - 52)) : ℚ) * 2 ^ (Int.log 2 q - 52) - q|
      ≤ 1 / 2 * 2 ^ (Int.log 2 q - 52) := by
    rw [hdiff, abs_mul, abs_of_pos hulp]
    exact mul_le_mul_of_nonneg_right hr hulp.le
  have hbound : (1 : ℚ) / 2 * 2 ^ (Int.log 2 q - 52) ≤ q / 2 ^ 53 := by
    rw [le_div_iff₀ (by positivity)]
    calc (1 : ℚ) / 2 * 2 ^ (Int.log 2 q - 52) * 2 ^ 53
        = 2 ^ (Int.log 2 q - 52) * 2 ^ 52 := by ring
      _ ≤ q := by rw [← he]; exact h1
  have hr' := abs_le.1 hr
  have hR0 : 0 ≤ roundNE (q / 2 ^ (Int.log 2 q - 52)) := by
    have : (0 : ℚ) < (roundNE (q / 2 ^ (Int.log 2 q - 52)) : ℚ) := by
      have h52 : (1 : ℚ) ≤ 2 ^ 52 := by norm_num
      linarith [hr'.1]
    have : (0 : ℤ) < roundNE (q / 2 ^ (Int.log 2 q - 52)) := by exact_mod_cast this
    omega
  have hR1 : roundNE (q / 2 ^ (Int.log 2 q - 52)) ≤ 2 ^ 53 := by
    have : (roundNE (q / 2 ^ (Int.log 2 q - 52)) : ℚ) < ((2 ^ 53 + 1 : ℤ) : ℚ) := by
      push_cast
      linarith [hr'.2]
    have := Int.cast_lt.1 this
    omega
  obtain ⟨s, hs⟩ := Int.eq_ofNat_of_zero_le hR0
  refine ⟨(roundNE (q / 2 ^ (Int.log 2 q - 52)) : ℚ) * 2 ^ (Int.log 2 q - 52), s,
    Int.log 2 q - 52, ?_, habs.trans hbound, by rw [hs]; rfl, by rw [hs] at hR1; exact_mod_cast hR1⟩
  unfold F64.round
  rw [if_neg hq.ne']
  simp only [hmax]
  rw [if_neg]
  rw [not_le]
  have hv := (abs_le.1 (habs.trans hbound)).2
  have h53 : q / 2 ^ 53 ≤ q := div_le_self hq.le (by norm_num)
  have h1024 : (2 : ℚ) ^ (1023 : ℤ) * 2 = 2 ^ (1024 : ℕ) := by norm_num
  linarith

/-- In the normal range rounding is finite and has relative error at most `2^-53`. -/
theorem F64.round_normal (q : ℚ) (hlo : (2 : ℚ) ^ (-1022 : ℤ) ≤ q) (hhi : q < 2 ^ (1023 : ℤ)) :
    ∃ v : ℚ, F64.round q = .fin v ∧ |v - q| ≤ q / 2 ^ 53 := by
  obtain ⟨v, _, _, hv, hb, _⟩ := F64.round_repr q hlo hhi
  exact ⟨v, hv, hb⟩

/-- A value `m * 2^k` with a significand below `2^53`, in the normal range, is a binary64
number: rounding returns it unchanged. -/
theorem F64.round_exact (q : ℚ) (m : ℕ) (k : ℤ) (hq : q = (m : ℚ) * 2 ^ k)
    (hm : m < 2 ^ 53) (hlo : (2 : ℚ) ^ (-1022 : ℤ) ≤ q) (hhi : q < 2 ^ (1024 : ℕ)) :
    F64.round q = .fin q := by
  have hpos : 0 < q := lt_of_lt_of_le (two_zpow_pos _) hlo
  have hle : (-1022 : ℤ) ≤ Int.log 2 q :=
    (Int.zpow_le_iff_le_log (b := 2) (by norm_num) hpos (x := -1022)).1 (by exact_mod_cast hlo)
  have hmax : max (Int.log 2 q) (-1022) = Int.log 2 q := max_eq_left hle
  have hm53 : (m : ℚ) < 2 ^ (53 : ℤ) := by
    calc (m : ℚ) < 9007199254740992 := by exact_mod_cast hm
      _ = 2 ^ (53 : ℤ) := by norm_num
  have hlt53 : q < (2 : ℚ) ^ (53 + k) := by
    rw [hq, zpow_add₀ (by norm_num : (2 : ℚ) ≠ 0)]
    exact mul_lt_mul_of_pos_right hm53 (two_zpow_pos k)
  have he : Int.log 2 q < 53 + k :=
    (Int.lt_zpow_iff_log_lt (b := 2) (by norm_num) hpos (x := 53 + k)).1
      (by exact_mod_cast hlt53)
  unfold F64.round
  rw [if_neg hpos.ne']
  simp only [hmax]
  generalize Int.log 2 q = e at he
  obtain ⟨j, hj⟩ : ∃ j : ℕ, (j : ℤ) = k - (e - 52) := ⟨(k - (e - 52)).toNat, by omega⟩
  have hx : q / 2 ^ (e - 52) = (((m * 2 ^ j : ℕ) : ℤ) : ℚ) := by
    rw [hq, mul_div_assoc, ← zpow_sub₀ (by norm_num : (2 : ℚ) ≠ 0), ← hj]
    push_cast
    rw [zpow_natCast]
  rw [hx, roundNE_intCast, ← hx, div_mul_cancel₀ _ (two_zpow_pos _).ne', if_neg (not_le.2 hhi)]

/-- Three roundings (both operands, then the quotient), each of relative error at most
`2^-53`, leave the quotient within relative error `2^-51`. -/
theorem rel_compose (A B a b q v : ℚ) (hA : 0 ≤ A) (hB : 0 < B)
    (ha : |a - A| ≤ A / 2 ^ 53) (hb : |b - B| ≤ B / 2 ^ 53) (hq : q = a / b)
    (hv : |v - q| ≤ q / 2 ^ 53) : |v - A / B| ≤ A / B / 2 ^ 51 := by
  have ha' := abs_le.1 ha
  have hb' := abs_le.1 hb
  have hv' := abs_le.1 hv
  have hbpos : 0 < b := by
    have : B / 2 ^ 53 ≤ B / 2 := div_le_div_of_nonneg_left hB.le (by norm_num) (by norm_num)
    linarith [hb'.1]
  have hX : 0 ≤ A / B := div_nonneg hA hB.le
  have hXB : A / B * B = A := div_mul_cancel₀ A hB.ne'
  have hqb : q * b = a := by rw [hq]; exact div_mul_cancel₀ a hbpos.ne'
  -- upper bound on the quotient of the rounded operands
  have hq1 : q ≤ A / B * ((2 ^ 53 + 1) / (2 ^ 53 - 1)) := by
    have h1 : q * b ≤ A / B * ((2 ^ 53 + 1) / (2 ^ 53 - 1)) * b := by
      have hc : (0 : ℚ) ≤ A / B * ((2 ^ 53 + 1) / (2 ^ 53 - 1)) :=
        mul_nonneg hX (by norm_num)
      have hb1 : B - B / 2 ^ 53 ≤ b := by linarith [hb'.1]
      calc q * b = a := hqb
        _ ≤ A + A / 2 ^ 53 := by linarith [ha'.2]
        _ = A / B * ((2 ^ 53 + 1) / (2 ^ 53 - 1)) * (B - B / 2 ^ 53) := by
            rw [← hXB]; field_simp; ring
        _ ≤ A / B * ((2 ^ 53 + 1) / (2 ^ 53 - 1)) * b := mul_le_mul_of_nonneg_left hb1 hc
    exact le_of_mul_le_mul_right h1 hbpos
  have hq2 : A / B * ((2 ^ 53 - 1) / (2 ^ 53 + 1)) ≤ q := by
    have h1 : A / B * ((2 ^ 53 - 1) / (2 ^ 53 + 1)) * b ≤ q * b := by
      have hc : (0 : ℚ) ≤ A / B * ((2 ^ 53 - 1) / (2 ^ 53 + 1)) :=
        mul_nonneg hX (by norm_num)
      have hb1 : b ≤ B + B / 2 ^ 53 := by linarith [hb'.2]
      calc A / B * ((2 ^ 53 - 1) / (2 ^ 53 + 1)) * b
          ≤ A / B * ((2 ^ 53 - 1) / (2 ^ 53 + 1)) * (B + B / 2 ^ 53) :=
            mul_le_mul_of_nonneg_left hb1 hc
        _ = A - A / 2 ^ 53 := by rw [← hXB]; field_simp; ring
        _ ≤ a := by linarith [ha'.1]
        _ = q * b := hqb.symm
    exact le_of_mul_le_mul_right h1 hbpos
  rw [abs_le]
  constructor
  · have h3 : A / B * ((2 ^ 53 - 1) / (2 ^ 53 + 1)) * (1 - 1 / 2 ^ 53) ≤ v := by
      have : q * (1 - 1 / 2 ^ 53) ≤ v := by linarith [hv'.1]
      have h4 := mul_le_mul_of_nonneg_right hq2 (by norm_num : (0 : ℚ) ≤ 1 - 1 / 2 ^ 53)
      linarith
    have h5 : A / B * (1 - 1 / 2 ^ 51)
        ≤ A / B * (((2 ^ 53 - 1) / (2 ^ 53 + 1)) * (1 - 1 / 2 ^ 53)) :=
      mul_le_mul_of_nonneg_left (by norm_num) hX
    linarith
  · have h3 : v ≤ A / B * ((2 ^ 53 + 1) / (2 ^ 53 - 1)) * (1 + 1 / 2 ^ 53) := by
      have : v ≤ q * (1 + 1 / 2 ^ 53) := by linarith [hv'.2]
      have h4 := mul_le_mul_of_nonneg_right hq1 (by norm_num : (0 : ℚ) ≤ 1 + 1 / 2 ^ 53)
      linarith
    have h5 : A / B * (((2 ^ 53 + 1) / (2 ^ 53 - 1)) * (1 + 1 / 2 ^ 53))
        ≤ A / B * (1 + 1 / 2 ^ 51) :=
      mul_le_mul_of_nonneg_left (by norm_num) hX
    linarith

/-! ## The loops in closed form -/

theorem sizeLoop_eq {Row : Type} (W : World) (FUNC : Func) (message : List ℕ)
    (digest : Digest) (setSize IMPL : Row → ℕ → Row) (m : Machine) (t : ℕ → Row) (n : ℕ) :
    (List.range n).foldl (sizeStep W FUNC message digest setSize IMPL) (m, t)
      = ({ m with calls := m.calls + n,
                  trace := m.trace ++ sizeEvents W FUNC message digest m.cap m.calls n },
         fun i => if i < n then
            IMPL (setSize (t i) (toU64 (shl1 i)))
              (toU64 (W.cycles (m.calls + i) (sizeCall FUNC message digest m.cap i)))
          else t i) := by
  induction n with
  | zero => simp [sizeEvents]
  | succ n ih =>
    rw [List.range_succ, List.foldl_append, ih]
    simp only [List.foldl_cons, List.foldl_nil, sizeStep, CLOCKS, sizeEvents, sizeCall,
      List.range_succ, List.map_append, List.map_cons, List.map_nil, List.append_assoc,
      Function.update_same, Function.update_idem]
    refine Prod.ext ?_ ?_
    · simp [Nat.add_assoc]
    · funext i
      simp only [Function.update_apply]
      by_cases h : i = n
      · subst h; simp
      · have : i < n + 1 ↔ i < n := by omega
        simp [h, this]

theorem nwPairs_succ (next N : ℕ) :
    nwPairs next (N + 1) = nwPairs next N ++ [(next + 2 * N, next + 2 * N + 1)] := by
  simp [nwPairs, List.range_succ]

theorem allocLoop_eq (MS : ℕ) (m : Machine) (msg dig : List ℕ) (N : ℕ) :
    (List.range N).foldl (allocStep MS) (m, msg, dig)
      = ({ m with next := m.next + 2 * N,
                  live := m.live ++ pairBufs (nwPairs m.next N),
                  trace := m.trace ++ allocEvents MS (nwPairs m.next N) },
         msg ++ (nwPairs m.next N).map Prod.fst, dig ++ (nwPairs m.next N).map Prod.snd) := by
  induction N with
  | zero => simp [nwPairs, pairBufs, allocEvents]
  | succ N ih =>
    rw [List.range_succ, List.foldl_append, ih, nwPairs_succ]
    simp [allocStep, _mm_malloc, random_bytes, pairBufs, allocEvents, List.flatMap_append]
    omega

theorem freeLoop_eq (ps : List (ℕ × ℕ)) (m : Machine) :
    ps.foldl freeStep m
      = { m with live := ps.foldl (fun l p => (l.erase p.1).erase p.2) m.live,
                 trace := m.trace ++ freeEvents ps } := by
  induction ps generalizing m with
  | nil => simp [freeEvents]
  | cons p ps ih =>
    rw [List.foldl_cons, ih]
    simp [freeStep, _mm_free, freeEvents]

theorem erase_pairs (L : List ℕ) (ps : List (ℕ × ℕ)) (h : ∀ x ∈ pairBufs ps, x ∉ L) :
    ps.foldl (fun l p => (l.erase p.1).erase p.2) (L ++ pairBufs ps) = L := by
  induction ps with
  | nil => simp [pairBufs]
  | cons p ps ih =>
    have h1 : p.1 ∉ L := h p.1 (by simp [pairBufs])
    have h2 : p.2 ∉ L := h p.2 (by simp [pairBufs])
    have hrest : ∀ x ∈ pairBufs ps, x ∉ L := fun x hx => h x (by
      simp only [pairBufs, List.flatMap_cons, List.mem_append] at hx ⊢
      exact Or.inr hx)
    rw [List.foldl_cons]
    have : ((L ++ pairBufs (p :: ps)).erase p.1).erase p.2 = L ++ pairBufs ps := by
      simp only [pairBufs, List.flatMap_cons, List.cons_append, List.nil_append]
      rw [List.erase_append_right _ h1, List.erase_cons_head, List.erase_append_right _ h2,
        List.erase_cons_head]
    rw [this]
    exact ih hrest

theorem zip_fst_snd (ps : List (ℕ × ℕ)) : (ps.map Prod.fst).zip (ps.map Prod.snd) = ps := by
  induction ps with
  | nil => rfl
  | cons p ps ih => simp [ih]

theorem BENCH_SIZE_1W_eq {Row : Type} (W : World) (maxBits : ℕ) (FUNC : Func) (message : ℕ)
    (setSize IMPL : Row → ℕ → Row) (m : Machine) (t : ℕ → Row) :
    BENCH_SIZE_1W W maxBits FUNC message setSize IMPL (m, t)
      = ({ m with calls := m.calls + maxBits,
                  trace := m.trace ++ sizeEvents W FUNC [message] .stack m.cap m.calls maxBits },
         fun i => if i < maxBits then
            IMPL (setSize (t i) (toU64 (shl1 i)))
              (toU64 (W.cycles (m.calls + i) (sizeCall FUNC [message] .stack m.cap i)))
          else t i) :=
  sizeLoop_eq W FUNC [message] .stack setSize IMPL m t maxBits

theorem BENCH_SIZE_NW_eq (W : World) (maxBits : ℕ) (FUNC : Func) (N : Degree) (m : Machine)
    (t : ℕ → parallelTimings) :
    BENCH_SIZE_NW W maxBits FUNC N (m, t)
      = ({ cap := m.cap, next := m.next + 2 * N.n,
           live := (nwPairs m.next N.n).foldl (fun l p => (l.erase p.1).erase p.2)
                    (m.live ++ pairBufs (nwPairs m.next N.n)),
           calls := m.calls + maxBits,
           trace := m.trace ++ nwEvents W maxBits FUNC N m.cap m.calls m.next },
         fun i => if i < maxBits then
            N.set ((t i).setSize (toU64 (shl1 i)))
              (toU64 (W.cycles (m.calls + i)
                (sizeCall FUNC ((nwPairs m.next N.n).map Prod.fst)
                  (.heap ((nwPairs m.next N.n).map Prod.snd)) m.cap i)))
          else t i) := by
  unfold BENCH_SIZE_NW
  simp only [allocLoop_eq, sizeLoop_eq, List.nil_append, zip_fst_snd, freeLoop_eq, nwEvents,
    List.append_assoc]

theorem pairBufs_nwPairs_ge (next N : ℕ) : ∀ x ∈ pairBufs (nwPairs next N), next ≤ x := by
  intro x hx
  simp only [pairBufs, nwPairs, List.mem_flatMap, List.mem_map, List.mem_range] at hx
  obtain ⟨p, ⟨j, _, rfl⟩, hx⟩ := hx
  simp at hx
  omega

theorem BENCH_SIZE_NW_live (W : World) (maxBits : ℕ) (FUNC : Func) (N : Degree)
    (s : Machine × (ℕ → parallelTimings)) (hwf : s.1.wf) :
    (BENCH_SIZE_NW W maxBits FUNC N s).1.live = s.1.live := by
  obtain ⟨m, t⟩ := s
  rw [BENCH_SIZE_NW_eq]
  apply erase_pairs
  intro x hx hmem
  have h1 := pairBufs_nwPairs_ge _ _ x hx
  have h2 : x < m.next := hwf x hmem
  omega

theorem BENCH_SIZE_NW_wf (W : World) (maxBits : ℕ) (FUNC : Func) (N : Degree)
    (s : Machine × (ℕ → parallelTimings)) (hwf : s.1.wf) :
    (BENCH_SIZE_NW W maxBits FUNC N s).1.wf := by
  intro p hp
  rw [BENCH_SIZE_NW_live W maxBits FUNC N s hwf] at hp
  have h2 := hwf p hp
  obtain ⟨m, t⟩ := s
  rw [BENCH_SIZE_NW_eq]
  show p < m.next + 2 * N.n
  have : p < m.next := h2
  omega

theorem bench_1w_fst (W : World) (n : ℕ) (t : ℕ → seqTimings) (m : Machine) :
    (bench_1w W n t m).1
      = { cap := m.cap &&& 0x10000000, next := m.next + 1,
          live := (m.live ++ [m.next]).erase m.next,
          calls := m.calls + n + n + n,
          trace := m.trace ++ ([.malloc m.next (toU64 (shl1 n))]
            ++ sizeEvents W .SHA256 [m.next] .stack m.cap m.calls n
            ++ [.capStore (m.cap &&& 0x10000000)]
            ++ sizeEvents W .SHA256 [m.next] .stack (m.cap &&& 0x10000000) (m.calls + n) n
            ++ sizeEvents W .sha256_update_shani [m.next] .stack (m.cap &&& 0x10000000)
                (m.calls + n + n) n
            ++ [.tableSeq (print_tableSeq (bench_1w W n t m).2 n)]
            ++ [.free m.next]) } := by
  simp [bench_1w, BENCH_SIZE_1W_eq, _mm_malloc, _mm_free, disableShani]

theorem bench_1w_snd (W : World) (n : ℕ) (t : ℕ → seqTimings) (m : Machine) (i : ℕ) :
    (bench_1w W n t m).2 i
      = if i < n then
          ⟨toU64 (shl1 i),
            toU64 (W.cycles (m.calls + n + i)
              (sizeCall .SHA256 [m.next] .stack (m.cap &&& 0x10000000) i)),
            toU64 (W.cycles (m.calls + n + n + i)
              (sizeCall .sha256_update_shani [m.next] .stack (m.cap &&& 0x10000000) i))⟩
        else t i := by
  simp only [bench_1w, BENCH_SIZE_1W_eq, _mm_malloc, disableShani]
  split_ifs with h <;> simp [seqTimings.setSize, seqTimings.setOpenssl, seqTimings.setShani]

theorem bench_Nw_snd (W : World) (n : ℕ) (t : ℕ → parallelTimings) (m : Machine) (i : ℕ) :
    (bench_Nw W n t m).2 i
      = if i < n then
          ⟨toU64 (shl1 i),
            toU64 (W.cycles (m.calls + i) (nwCall m .x1 i)),
            toU64 (W.cycles (m.calls + n + i) (nwCall m .x2 i)),
            toU64 (W.cycles (m.calls + n + n + i) (nwCall m .x4 i)),
            toU64 (W.cycles (m.calls + n + n + n + i) (nwCall m .x8 i))⟩
        else t i := by
  simp only [bench_Nw, BENCH_SIZE_1W_eq, BENCH_SIZE_NW_eq, _mm_malloc, nwCall]
  split_ifs with h <;> simp [parallelTimings.setSize, Degree.set, Degree.n]

theorem bench_Nw_trace (W : World) (n : ℕ) (t : ℕ → parallelTimings) (m : Machine) :
    (bench_Nw W n t m).1.trace
      = m.trace ++ ([.malloc m.next (toU64 (shl1 n))]
          ++ sizeEvents W .sha256_update_shani [m.next] .stack m.cap m.calls n
          ++ nwEvents W n .sha256_x2_update_shani_2x .x2 m.cap (m.calls + n) (m.next + 1)
          ++ nwEvents W n .sha256_x4_update_shani_4x .x4 m.cap (m.calls + n + n)
              (m.next + 1 + 4)
          ++ nwEvents W n .sha256_x8_update_shani_8x .x8 m.cap (m.calls + n + n + n)
              (m.next + 1 + 4 + 8)
          ++ [.tableParallel (print_tableParallel (bench_Nw W n t m).2 n)]) := by
  simp [bench_Nw, BENCH_SIZE_1W_eq, BENCH_SIZE_NW_eq, _mm_malloc, Degree.n]

theorem bench_Nw_cap (W : World) (n : ℕ) (t : ℕ → parallelTimings) (m : Machine) :
    (bench_Nw W n t m).1.cap = m.cap := by
  simp [bench_Nw, BENCH_SIZE_1W_eq, BENCH_SIZE_NW_eq, _mm_malloc]

theorem bench_Nw_live (W : World) (n : ℕ) (t : ℕ → parallelTimings) (m : Machine)
    (hwf : m.wf) : (bench_Nw W n t m).1.live = m.live ++ [m.next] := by
  have hwf1 : ((BENCH_SIZE_1W W n .sha256_update_shani (_mm_malloc (toU64 (shl1 n)) m).1
      parallelTimings.setSize Degree.x1.set ((_mm_malloc (toU64 (shl1 n)) m).2, t)).1).wf := by
    rw [BENCH_SIZE_1W_eq]
    intro p hp
    simp only [_mm_malloc, List.mem_append, List.mem_singleton] at hp ⊢
    rcases hp with hp | hp
    · have := hwf p hp; omega
    · omega
  have hwf2 := BENCH_SIZE_NW_wf W n .sha256_x2_update_shani_2x .x2 _ hwf1
  have hwf4 := BENCH_SIZE_NW_wf W n .sha256_x4_update_shani_4x .x4 _ hwf2
  simp only [bench_Nw]
  rw [BENCH_SIZE_NW_live _ _ _ _ _ hwf4, BENCH_SIZE_NW_live _ _ _ _ _ hwf2,
    BENCH_SIZE_NW_live _ _ _ _ _ hwf1, BENCH_SIZE_1W_eq]
  simp [_mm_malloc]

theorem bench_1w_live (W : World) (n : ℕ) (t : ℕ → seqTimings) (m : Machine)
    (hwf : m.wf) : (bench_1w W n t m).1.live = m.live := by
  rw [bench_1w_fst]
  show (m.live ++ [m.next]).erase m.next = m.live
  have h : m.next ∉ m.live := fun hmem => by have := hwf _ hmem; omega
  rw [List.erase_append_right _ h]
  simp

/-! ## Machine arithmetic on the tested range -/

theorem shl1_eq (i : ℕ) (h : i ≤ 30) : shl1 i = 2 ^ i := by
  have h1 : (2 : ℤ) ^ i < 2 ^ 31 := pow_lt_pow_right₀ (by norm_num) (by omega)
  have h0 : (0 : ℤ) ≤ 2 ^ i := by positivity
  have hmod : (2 : ℤ) ^ i % 2 ^ 32 = 2 ^ i := Int.emod_eq_of_lt h0 (by linarith)
  unfold shl1 toInt32
  rw [hmod, if_pos h1]

theorem toU64_shl1 (i : ℕ) (h : i ≤ 30) : toU64 (shl1 i) = 2 ^ i := by
  have h1 : (2 : ℤ) ^ i < 2 ^ 64 :=
    lt_of_lt_of_le (pow_lt_pow_right₀ (by norm_num) (by omega : i < 31)) (by norm_num)
  have h0 : (0 : ℤ) ≤ 2 ^ i := by positivity
  rw [shl1_eq i h]
  unfold toU64
  rw [Int.emod_eq_of_lt h0 h1]
  have : ((2 ^ i : ℕ) : ℤ) = 2 ^ i := by push_cast; rfl
  rw [← this, Int.toNat_natCast]

theorem benchTimes_eq (i : ℕ) (h : i ≤ 25) : benchTimes i = 512 - 20 * (i : ℤ) := by
  unfold benchTimes toLong toU64
  have h1 : ((512 - (i : ℤ) * 20) % 2 ^ 64).toNat = 512 - 20 * i := by omega
  rw [h1]
  have h2 : (512 - 20 * i) % 2 ^ 64 = 512 - 20 * i := by omega
  rw [h2, if_pos (by omega)]
  omega

theorem toLong_small (x : ℕ) (h : x < 2 ^ 63) : toLong x = x := by
  unfold toLong
  have h2 : x % 2 ^ 64 = x := by omega
  rw [h2, if_pos h]

/-! ## Timed calls of a run -/

theorem timedCalls_append (xs ys : List Event) :
    timedCalls (xs ++ ys) = timedCalls xs ++ timedCalls ys := by
  induction xs with
  | nil => rfl
  | cons e xs ih => cases e <;> simp [timedCalls, ih]

theorem timedCalls_sizeEvents (W : World) (FUNC : Func) (message : List ℕ) (digest : Digest)
    (cap calls n : ℕ) :
    timedCalls (sizeEvents W FUNC message digest cap calls n)
      = (List.range n).map (fun i => (sizeCall FUNC message digest cap i,
          W.cycles (calls + i) (sizeCall FUNC message digest cap i))) := by
  induction n with
  | zero => rfl
  | succ n ih =>
    unfold sizeEvents at ih ⊢
    rw [List.range_succ, List.map_append, List.map_append, timedCalls_append, ih]
    rfl

theorem timedCalls_allocEvents (MS : ℕ) (ps : List (ℕ × ℕ)) :
    timedCalls (allocEvents MS ps) = [] := by
  induction ps with
  | nil => rfl
  | cons p ps ih =>
    unfold allocEvents at ih ⊢
    rw [List.flatMap_cons, timedCalls_append, ih]
    rfl

theorem timedCalls_freeEvents (ps : List (ℕ × ℕ)) : timedCalls (freeEvents ps) = [] := by
  induction ps with
  | nil => rfl
  | cons p ps ih =>
    unfold freeEvents at ih ⊢
    rw [List.flatMap_cons, timedCalls_append, ih]
    rfl

theorem timedCalls_nwEvents (W : World) (maxBits : ℕ) (FUNC : Func) (N : Degree)
    (cap calls next : ℕ) :
    timedCalls (nwEvents W maxBits FUNC N cap calls next)
      = (List.range maxBits).map (fun i =>
          (sizeCall FUNC ((nwPairs next N.n).map Prod.fst)
            (.heap ((nwPairs next N.n).map Prod.snd)) cap i,
           W.cycles (calls + i) (sizeCall FUNC ((nwPairs next N.n).map Prod.fst)
            (.heap ((nwPairs next N.n).map Prod.snd)) cap i))) := by
  unfold nwEvents
  rw [timedCalls_append, timedCalls_append, timedCalls_allocEvents, timedCalls_freeEvents,
    timedCalls_sizeEvents, List.nil_append, List.append_nil]

theorem newEvents_append (m m2 : Machine) (es : List Event) (h : m2.trace = m.trace ++ es) :
    newEvents m m2 = es := by
  unfold newEvents
  rw [h, List.drop_left]

theorem newEvents_1W {Row : Type} (W : World) (maxBits : ℕ) (FUNC : Func) (message : ℕ)
    (setSize IMPL : Row → ℕ → Row) (m : Machine) (t : ℕ → Row) :
    newEvents m (BENCH_SIZE_1W W maxBits FUNC message setSize IMPL (m, t)).1
      = sizeEvents W FUNC [message] .stack m.cap m.calls maxBits := by
  apply newEvents_append
  rw [BENCH_SIZE_1W_eq]

theorem newEvents_NW (W : World) (maxBits : ℕ) (FUNC : Func) (N : Degree) (m : Machine)
    (t : ℕ → parallelTimings) :
    newEvents m (BENCH_SIZE_NW W maxBits FUNC N (m, t)).1
      = nwEvents W maxBits FUNC N m.cap m.calls m.next := by
  apply newEvents_append
  rw [BENCH_SIZE_NW_eq]

theorem map_shl1 (n : ℕ) (h : n ≤ 31) :
    (List.range n).map shl1 = (List.range n).map (fun j : ℕ => (2 : ℤ) ^ j) := by
  apply List.map_congr_left
  intro j hj
  exact shl1_eq j (by have := List.mem_range.1 hj; omega)

theorem map_benchTimes (n : ℕ) (h : n ≤ 26) :
    (List.range n).map benchTimes = (List.range n).map (fun j : ℕ => (512 : ℤ) - 20 * (j : ℤ)) := by
  apply List.map_congr_left
  intro j hj
  exact benchTimes_eq j (by have := List.mem_range.1 hj; omega)

theorem timed_bench_Nw (W : World) (n : ℕ) (t : ℕ → parallelTimings) (m : Machine) :
    timedCalls (newEvents m (bench_Nw W n t m).1)
      = colTimed W m .x1 m.calls n ++ colTimed W m .x2 (m.calls + n) n
        ++ colTimed W m .x4 (m.calls + n + n) n ++ colTimed W m .x8 (m.calls + n + n + n) n := by
  rw [newEvents_append m _ _ (bench_Nw_trace W n t m)]
  simp only [timedCalls_append, timedCalls_nwEvents, timedCalls_sizeEvents]
  simp only [timedCalls, List.nil_append, List.append_nil, colTimed, nwCall, Degree.n]

theorem nwCall_func (m : Machine) (d : Degree) (i : ℕ) : (nwCall m d i).func = d.func := by
  cases d <;> rfl

theorem nwCall_size (m : Machine) (d : Degree) (i : ℕ) :
    (nwCall m d i).message_size = shl1 i := by
  cases d <;> rfl

theorem colTimed_filter_same (W : World) (m : Machine) (d : Degree) (calls n : ℕ) :
    (colTimed W m d calls n).filter (fun c => c.1.func = d.func) = colTimed W m d calls n := by
  rw [List.filter_eq_self]
  intro c hc
  simp only [colTimed, List.mem_map] at hc
  obtain ⟨i, _, rfl⟩ := hc
  simp [nwCall_func]

theorem colTimed_filter_other (W : World) (m : Machine) (d e : Degree) (h : e ≠ d)
    (calls n : ℕ) :
    (colTimed W m e calls n).filter (fun c => c.1.func = d.func) = [] := by
  rw [List.filter_eq_nil_iff]
  intro c hc
  simp only [colTimed, List.mem_map] at hc
  obtain ⟨i, _, rfl⟩ := hc
  simp only [nwCall_func, decide_eq_true_eq]
  intro hfe
  apply h
  cases d <;> cases e <;> first | rfl | (exact absurd hfe (by decide))

theorem capStores_append (xs ys : List Event) :
    capStores (xs ++ ys) = capStores xs ++ capStores ys := by
  induction xs with
  | nil => rfl
  | cons e xs ih => cases e <;> simp [capStores, ih]

theorem capStores_sizeEvents (W : World) (FUNC : Func) (message : List ℕ) (digest : Digest)
    (cap calls n : ℕ) : capStores (sizeEvents W FUNC message digest cap calls n) = [] := by
  induction n with
  | zero => rfl
  | succ n ih =>
    unfold sizeEvents at ih ⊢
    rw [List.range_succ, List.map_append, capStores_append, ih]
    rfl

theorem capStores_allocEvents (MS : ℕ) (ps : List (ℕ × ℕ)) :
    capStores (allocEvents MS ps) = [] := by
  induction ps with
  | nil => rfl
  | cons p ps ih =>
    unfold allocEvents at ih ⊢
    rw [List.flatMap_cons, capStores_append, ih]
    rfl

theorem capStores_freeEvents (ps : List (ℕ × ℕ)) : capStores (freeEvents ps) = [] := by
  induction ps with
  | nil => rfl
  | cons p ps ih =>
    unfold freeEvents at ih ⊢
    rw [List.flatMap_cons, capStores_append, ih]
    rfl

theorem capStores_nwEvents (W : World) (maxBits : ℕ) (FUNC : Func) (N : Degree)
    (cap calls next : ℕ) : capStores (nwEvents W maxBits FUNC N cap calls next) = [] := by
  unfold nwEvents
  rw [capStores_append, capStores_append, capStores_allocEvents, capStores_freeEvents,
    capStores_sizeEvents]
  rfl

theorem capStores_bench_Nw (W : World) (n : ℕ) (t : ℕ → parallelTimings) (m : Machine) :
    capStores (newEvents m (bench_Nw W n t m).1) = [] := by
  rw [newEvents_append m _ _ (bench_Nw_trace W n t m)]
  simp only [capStores_append, capStores_nwEvents, capStores_sizeEvents]
  rfl

theorem colTimed_cap (W : World) (m : Machine) (d : Degree) (calls n : ℕ) :
    ∀ c ∈ colTimed W m d calls n, c.1.cap = m.cap := by
  intro c hc
  simp only [colTimed, List.mem_map] at hc
  obtain ⟨i, _, rfl⟩ := hc
  cases d <;> rfl

theorem timed_bench_1w (W : World) (n : ℕ) (t : ℕ → seqTimings) (m : Machine) :
    timedCalls (newEvents m (bench_1w W n t m).1)
      = (List.range n).map (fun i => (sizeCall .SHA256 [m.next] .stack m.cap i,
            W.cycles (m.calls + i) (sizeCall .SHA256 [m.next] .stack m.cap i)))
        ++ ((List.range n).map (fun i =>
            (sizeCall .SHA256 [m.next] .stack (m.cap &&& 0x10000000) i,
              W.cycles (m.calls + n + i)
                (sizeCall .SHA256 [m.next] .stack (m.cap &&& 0x10000000) i)))
        ++ (List.range n).map (fun i =>
            (sizeCall .sha256_update_shani [m.next] .stack (m.cap &&& 0x10000000) i,
              W.cycles (m.calls + n + n + i)
                (sizeCall .sha256_update_shani [m.next] .stack (m.cap &&& 0x10000000) i)))) := by
  rw [newEvents_append m _ _ (congrArg Machine.trace (bench_1w_fst W n t m))]
  simp only [timedCalls_append, timedCalls_sizeEvents]
  simp only [timedCalls, List.nil_append, List.append_nil, List.append_assoc]

theorem getElem?_map_range {α : Type} (f : ℕ → α) (n i : ℕ) (hi : i < n) :
    ((List.range n).map f)[i]? = some (f i) := by
  rw [List.getElem?_map, List.getElem?_range hi]
  rfl

theorem fills_append (xs ys : List Event) : fills (xs ++ ys) = fills xs ++ fills ys := by
  induction xs with
  | nil => rfl
  | cons e xs ih => cases e <;> simp [fills, ih]

theorem fills_sizeEvents (W : World) (FUNC : Func) (message : List ℕ) (digest : Digest)
    (cap calls n : ℕ) : fills (sizeEvents W FUNC message digest cap calls n) = [] := by
  induction n with
  | zero => rfl
  | succ n ih =>
    unfold sizeEvents at ih ⊢
    rw [List.range_succ, List.map_append, fills_append, ih]
    rfl

theorem fills_allocEvents (MS : ℕ) (ps : List (ℕ × ℕ)) :
    fills (allocEvents MS ps) = ps.map (fun p => (p.1, MS)) := by
  induction ps with
  | nil => rfl
  | cons p ps ih =>
    unfold allocEvents at ih ⊢
    rw [List.flatMap_cons, fills_append, ih]
    rfl

theorem fills_freeEvents (ps : List (ℕ × ℕ)) : fills (freeEvents ps) = [] := by
  induction ps with
  | nil => rfl
  | cons p ps ih =>
    unfold freeEvents at ih ⊢
    rw [List.flatMap_cons, fills_append, ih]
    rfl

theorem fills_nwEvents (W : World) (maxBits : ℕ) (FUNC : Func) (N : Degree)
    (cap calls next : ℕ) :
    fills (nwEvents W maxBits FUNC N cap calls next)
      = (nwPairs next N.n).map (fun p => (p.1, toU64 (shl1 maxBits))) := by
  unfold nwEvents
  rw [fills_append, fills_append, fills_allocEvents, fills_freeEvents, fills_sizeEvents,
    List.append_nil, List.append_nil]

theorem fills_bench_1w (W : World) (n : ℕ) (t : ℕ → seqTimings) (m : Machine) :
    fills (newEvents m (bench_1w W n t m).1) = [] := by
  rw [newEvents_append m _ _ (congrArg Machine.trace (bench_1w_fst W n t m))]
  simp only [fills_append, fills_sizeEvents]
  rfl

theorem fills_bench_Nw (W : World) (n : ℕ) (t : ℕ → parallelTimings) (m : Machine) :
    fills (newEvents m (bench_Nw W n t m).1)
      = (nwPairs (m.next + 1) 2 ++ nwPairs (m.next + 1 + 4) 4
          ++ nwPairs (m.next + 1 + 4 + 8) 8).map (fun p => (p.1, toU64 (shl1 n))) := by
  rw [newEvents_append m _ _ (bench_Nw_trace W n t m)]
  simp only [fills_append, fills_nwEvents, fills_sizeEvents, List.map_append]
  simp only [fills, List.nil_append, List.append_nil, Degree.n]

theorem Machine.start_wf (w : ℕ) : (Machine.start w).wf := by
  intro p hp
  simp [Machine.start] at hp

/-! ## The ratios -/

theorem tiny_le : (2 : ℚ) ^ (-1022 : ℤ) ≤ 1 / 2 ^ 70 := by
  have h : (2 : ℚ) ^ (-1022 : ℤ) ≤ 2 ^ (-70 : ℤ) :=
    zpow_le_zpow_right₀ (by norm_num) (by norm_num)
  have h2 : (2 : ℚ) ^ (-70 : ℤ) = 1 / 2 ^ 70 := by
    rw [zpow_neg, one_div]; norm_num
  rw [← h2]; exact h

theorem huge_ge : (2 : ℚ) ^ 70 < 2 ^ (1023 : ℤ) := by
  have h : (2 : ℚ) ^ (70 : ℤ) < 2 ^ (1023 : ℤ) :=
    zpow_lt_zpow_right₀ (by norm_num) (by norm_num)
  have h2 : (2 : ℚ) ^ (70 : ℤ) = 2 ^ 70 := by norm_num
  rw [← h2]; exact h

theorem F64.round_zero : F64.round 0 = .fin 0 := by simp [F64.round]

/-- Rounding of a result of moderate size: finite, within relative error `2^-53`, and exact
on binary64 numbers. -/
theorem F64.round_spec (q : ℚ) (h : q = 0 ∨ (1 / 2 ^ 70 ≤ q ∧ q ≤ 2 ^ 70)) :
    ∃ v : ℚ, F64.round q = .fin v ∧ |v - q| ≤ q / 2 ^ 53 ∧
      (∀ (m : ℕ) (k : ℤ), m < 2 ^ 53 → q = (m : ℚ) * 2 ^ k → v = q) := by
  rcases h with h | ⟨hlo, hhi⟩
  · subst h
    exact ⟨0, by simp [F64.round], by simp, fun _ _ _ _ => rfl⟩
  · have hlo2 := tiny_le.trans hlo
    have hhi2 := lt_of_le_of_lt hhi huge_ge
    obtain ⟨v, hv, hb⟩ := F64.round_normal q hlo2 hhi2
    refine ⟨v, hv, hb, ?_⟩
    intro m k hm hq
    have hhi3 : q < 2 ^ (1024 : ℕ) := by
      have : (2 : ℚ) ^ (1023 : ℤ) ≤ 2 ^ (1024 : ℕ) := by norm_num
      linarith
    have := F64.round_exact q m k hq hm hlo2 hhi3
    rw [hv] at this
    exact F64.fin.inj this

/-- A counter below `2^53` converts to `double` without rounding. -/
theorem F64.ofU64_exact (x : ℕ) (hx : x < 2 ^ 53) : F64.ofU64 x = .fin x := by
  rcases Nat.eq_zero_or_pos x with h0 | hpos
  · subst h0; simp [F64.ofU64, F64.round]
  · have h1 : (1 : ℚ) ≤ x := by exact_mod_cast hpos
    have h2 : (x : ℚ) < 2 ^ 53 := by exact_mod_cast hx
    have h70 : (1 : ℚ) / 2 ^ 70 ≤ 1 := by norm_num
    have hlo : (2 : ℚ) ^ (-1022 : ℤ) ≤ x := (tiny_le.trans h70).trans h1
    exact F64.round_exact x x 0 (by simp) hx hlo (by
      have : (2 : ℚ) ^ 53 ≤ 2 ^ (1024 : ℕ) := by norm_num
      linarith)

/-- Every `uint64_t` converts to a finite `double`: zero to zero, a positive counter to a
value between 1/2 and `2^65`. -/
theorem F64.ofU64_fin (x : ℕ) (hx : x < 2 ^ 64) :
    ∃ v : ℚ, F64.ofU64 x = .fin v ∧ (x = 0 → v = 0) ∧ (0 < x → 1 / 2 ≤ v ∧ v ≤ 2 ^ 65) := by
  rcases Nat.eq_zero_or_pos x with h0 | hpos
  · subst h0
    exact ⟨0, by simp [F64.ofU64, F64.round], fun _ => rfl, fun h => absurd h (lt_irrefl 0)⟩
  · have h1 : (1 : ℚ) ≤ x := by exact_mod_cast hpos
    have h2 : (x : ℚ) < 2 ^ 64 := by exact_mod_cast hx
    obtain ⟨v, hv, hb, _⟩ := F64.round_spec x (Or.inr ⟨by
      have h70 : (1 : ℚ) / 2 ^ 70 ≤ 1 := by norm_num
      linarith, by
      have : (2 : ℚ) ^ 64 ≤ 2 ^ 70 := by norm_num
      linarith⟩)
    refine ⟨v, hv, fun h => absurd h hpos.ne', fun _ => ?_⟩
    have hb' := abs_le.1 hb
    have h53 : (x : ℚ) / 2 ^ 53 ≤ x / 2 := by
      apply div_le_div_of_nonneg_left (by linarith) (by norm_num) (by norm_num)
    constructor <;> linarith [hb'.1, hb'.2]

/-- Exactness also holds for a significand equal to `2^53`. -/
theorem F64.round_exact_le (q : ℚ) (s : ℕ) (k : ℤ) (hq : q = (s : ℚ) * 2 ^ k)
    (hs : s ≤ 2 ^ 53) (hlo : (2 : ℚ) ^ (-1022 : ℤ) ≤ q) (hhi : q < 2 ^ (1024 : ℕ)) :
    F64.round q = .fin q := by
  rcases Nat.lt_or_ge s (2 ^ 53) with h | h
  · exact F64.round_exact q s k hq h hlo hhi
  · have hs' : s = 2 ^ 53 := le_antisymm hs h
    refine F64.round_exact q 1 (k + 53) ?_ (by norm_num) hlo hhi
    rw [hq, hs', zpow_add₀ (by norm_num : (2 : ℚ) ≠ 0)]
    push_cast
    rw [zpow_ofNat]
    ring

/-- Every `uint64_t` converts to a finite double within relative error `2^-53`. -/
theorem F64.ofU64_spec (x : ℕ) (hx : x < 2 ^ 64) :
    ∃ (v : ℚ) (s : ℕ) (k : ℤ), F64.ofU64 x = .fin v ∧ |v - x| ≤ (x : ℚ) / 2 ^ 53 ∧
      v = (s : ℚ) * 2 ^ k ∧ s ≤ 2 ^ 53 ∧ (x = 0 → v = 0) ∧
      (0 < x → 1 / 2 ≤ v ∧ v ≤ 2 ^ 65) := by
  rcases Nat.eq_zero_or_pos x with h0 | hpos
  · subst h0
    exact ⟨0, 0, 0, by simp [F64.ofU64, F64.round], by simp, by simp, by norm_num,
      fun _ => rfl, fun h => absurd h (lt_irrefl 0)⟩
  · have h1 : (1 : ℚ) ≤ x := by exact_mod_cast hpos
    have h2 : (x : ℚ) < 2 ^ 64 := by exact_mod_cast hx
    have h70 : (1 : ℚ) / 2 ^ 70 ≤ 1 := by norm_num
    have h64 : (2 : ℚ) ^ 64 ≤ 2 ^ 70 := by norm_num
    obtain ⟨v, s, k, hv, hb, hrep, hs⟩ := F64.round_repr x ((tiny_le.trans h70).trans h1)
      (lt_trans (lt_of_lt_of_le h2 h64) huge_ge)
    refine ⟨v, s, k, hv, hb, hrep, hs, fun h => absurd h hpos.ne', fun _ => ?_⟩
    have hb' := abs_le.1 hb
    have h53 : (x : ℚ) / 2 ^ 53 ≤ x / 2 :=
      div_le_div_of_nonneg_left (by linarith) (by norm_num) (by norm_num)
    constructor <;> linarith [hb'.1, hb'.2]

/-- Scaling a double of moderate size by 1, 2, 4 or 8 is exact. -/
theorem F64.mul_degree_exact (d : Degree) (v : ℚ) (s : ℕ) (k : ℤ) (hrep : v = (s : ℚ) * 2 ^ k)
    (hs : s ≤ 2 ^ 53) (hv : v = 0 ∨ (1 / 2 ≤ v ∧ v ≤ 2 ^ 65)) :
    F64.mul (.fin d.n) (.fin v) = .fin ((d.n : ℚ) * v) := by
  show F64.round ((d.n : ℚ) * v) = _
  rcases hv with hv | ⟨hv1, hv2⟩
  · subst hv; rw [mul_zero, F64.round_zero]
  · obtain ⟨j, hj, hj3⟩ : ∃ j : ℕ, (d.n : ℚ) = 2 ^ j ∧ j ≤ 3 := by
      cases d
      · exact ⟨0, by norm_num [Degree.n], by omega⟩
      · exact ⟨1, by norm_num [Degree.n], by omega⟩
      · exact ⟨2, by norm_num [Degree.n], by omega⟩
      · exact ⟨3, by norm_num [Degree.n], by omega⟩
    have hd1 : (1 : ℚ) ≤ d.n := by rw [hj]; exact one_le_pow₀ (by norm_num)
    have hd8 : (d.n : ℚ) ≤ 8 := by
      rw [hj]
      calc (2 : ℚ) ^ j ≤ 2 ^ 3 := pow_le_pow_right₀ (by norm_num) hj3
        _ = 8 := by norm_num
    have h70 : (1 : ℚ) / 2 ^ 70 ≤ 1 / 2 := by norm_num
    have hq1 : (1 : ℚ) / 2 ≤ d.n * v := by nlinarith
    have hq2 : (d.n : ℚ) * v < 2 ^ (1024 : ℕ) := by
      have : (d.n : ℚ) * v ≤ 8 * 2 ^ 65 := by nlinarith
      have h8 : (8 : ℚ) * 2 ^ 65 < 2 ^ (1024 : ℕ) := by norm_num
      linarith
    refine F64.round_exact_le _ s (k + j) ?_ hs ((tiny_le.trans h70).trans hq1) hq2
    rw [hrep, hj, zpow_add₀ (by norm_num : (2 : ℚ) ≠ 0), zpow_natCast]
    ring

/-- The quotient of two converted counters, the dividend scaled by `c` exactly: finite and
within relative error `2^-51` of the real quotient. -/
theorem F64.div_conv (c : ℚ) (hc1 : 1 ≤ c) (hc8 : c ≤ 8) (A B : ℕ) (a b : ℚ)
    (hBpos : 0 < B)
    (ha : |a - A| ≤ (A : ℚ) / 2 ^ 53) (ha0 : A = 0 → a = 0)
    (hapos : 0 < A → 1 / 2 ≤ a ∧ a ≤ 2 ^ 65)
    (hb : |b - B| ≤ (B : ℚ) / 2 ^ 53) (hb1 : 1 / 2 ≤ b) (hb2 : b ≤ 2 ^ 65) :
    ∃ v : ℚ, F64.div (.fin (c * a)) (.fin b) = .fin v ∧
      |v - c * A / B| ≤ c * A / B / 2 ^ 51 := by
  have hbne : b ≠ 0 := by linarith
  have hbpos : 0 < b := by linarith
  have hdef : F64.div (.fin (c * a)) (.fin b) = F64.round (c * a / b) := by
    show (if b = 0 then _ else _) = _
    rw [if_neg hbne]
  rw [hdef]
  have hcase : c * a / b = 0 ∨ (1 / 2 ^ 70 ≤ c * a / b ∧ c * a / b ≤ 2 ^ 70) := by
    rcases Nat.eq_zero_or_pos A with h | h
    · left; rw [ha0 h]; simp
    · right
      obtain ⟨h1, h2⟩ := hapos h
      have hn1 : (1 : ℚ) / 2 ≤ c * a := by nlinarith
      have hn2 : c * a ≤ 8 * 2 ^ 65 := by nlinarith
      constructor
      · rw [div_le_div_iff₀ (by positivity) hbpos]; nlinarith
      · rw [div_le_iff₀ hbpos]; nlinarith
  obtain ⟨v, hv, hvb, _⟩ := F64.round_spec _ hcase
  refine ⟨v, hv, ?_⟩
  have hAq : (0 : ℚ) ≤ c * A := mul_nonneg (by linarith) (Nat.cast_nonneg A)
  have hBq : (0 : ℚ) < B := by exact_mod_cast hBpos
  have hca : |c * a - c * A| ≤ c * A / 2 ^ 53 := by
    rw [← mul_sub, abs_mul, abs_of_nonneg (by linarith : (0 : ℚ) ≤ c), mul_div_assoc]
    exact mul_le_mul_of_nonneg_left ha (by linarith)
  exact rel_compose (c * A) B (c * a) b _ v hAq hBq hca hb rfl hvb

theorem F64.mul_degree (d : Degree) (x : ℕ) (hx : x < 2 ^ 53) :
    F64.mul (.fin d.n) (.fin x) = .fin ((d.n : ℚ) * x) := by
  show F64.round ((d.n : ℚ) * x) = _
  rcases Nat.eq_zero_or_pos x with h0 | hpos
  · subst h0; simp [F64.round]
  · have h1 : (1 : ℚ) ≤ x := by exact_mod_cast hpos
    have h2 : (x : ℚ) < 2 ^ 53 := by exact_mod_cast hx
    have h70 : (1 : ℚ) / 2 ^ 70 ≤ 1 := by norm_num
    obtain ⟨k, hk, hk3⟩ : ∃ k : ℕ, (d.n : ℚ) = 2 ^ k ∧ k ≤ 3 := by
      cases d
      · exact ⟨0, by norm_num [Degree.n], by omega⟩
      · exact ⟨1, by norm_num [Degree.n], by omega⟩
      · exact ⟨2, by norm_num [Degree.n], by omega⟩
      · exact ⟨3, by norm_num [Degree.n], by omega⟩
    have hd1 : (1 : ℚ) ≤ d.n := by rw [hk]; exact one_le_pow₀ (by norm_num)
    have hd8 : (d.n : ℚ) ≤ 8 := by
      rw [hk]
      calc (2 : ℚ) ^ k ≤ 2 ^ 3 := pow_le_pow_right₀ (by norm_num) hk3
        _ = 8 := by norm_num
    have hq1 : (1 : ℚ) ≤ d.n * x := by nlinarith
    have hq2 : (d.n : ℚ) * x < 2 ^ (1024 : ℕ) := by
      have : (d.n : ℚ) * x ≤ 8 * 2 ^ 53 := by nlinarith
      have h8 : (8 : ℚ) * 2 ^ 53 < 2 ^ (1024 : ℕ) := by norm_num
      linarith
    exact F64.round_exact _ x k (by rw [hk, zpow_natCast]; ring) hx
      ((tiny_le.trans h70).trans hq1) hq2

/-- The sequential ratio of a row with counters below `2^53` and a non-zero divisor. -/
theorem seqSpeedup_spec (r : seqTimings) (hB : 0 < r.shani) (hA53 : r.openssl < 2 ^ 53)
    (hB53 : r.shani < 2 ^ 53) :
    ∃ v : ℚ, seqSpeedup r = .fin v ∧
      |v - (r.openssl : ℚ) / r.shani| ≤ (r.openssl : ℚ) / r.shani / 2 ^ 53 ∧
      (∀ (s : ℕ) (k : ℤ), s < 2 ^ 53 → (r.openssl : ℚ) / r.shani = (s : ℚ) * 2 ^ k →
        v = (r.openssl : ℚ) / r.shani) := by
  have hb1 : (1 : ℚ) ≤ r.shani := by exact_mod_cast hB
  have hb2 : (r.shani : ℚ) < 2 ^ 53 := by exact_mod_cast hB53
  have ha2 : (r.openssl : ℚ) < 2 ^ 53 := by exact_mod_cast hA53
  have hbne : (r.shani : ℚ) ≠ 0 := by linarith
  have hdef : seqSpeedup r = F64.round ((r.openssl : ℚ) / r.shani) := by
    unfold seqSpeedup
    rw [F64.ofU64_exact _ hA53, F64.ofU64_exact _ hB53]
    show (if (r.shani : ℚ) = 0 then _ else _) = _
    rw [if_neg hbne]
  rw [hdef]
  apply F64.round_spec
  rcases Nat.eq_zero_or_pos r.openssl with h0 | hpos
  · left; rw [h0]; simp
  · right
    have ha1 : (1 : ℚ) ≤ r.openssl := by exact_mod_cast hpos
    constructor
    · rw [div_le_div_iff₀ (by positivity) (by linarith)]
      nlinarith
    · rw [div_le_iff₀ (by linarith)]
      nlinarith

/-- The parallel ratio of a column whose counters are below `2^53` and whose divisor is
non-zero. -/
theorem parSpeedup_spec (d : Degree) (r : parallelTimings) (hB : 0 < d.cycles r)
    (hA53 : r._1x < 2 ^ 53) (hB53 : d.cycles r < 2 ^ 53) :
    ∃ v : ℚ, parSpeedup d r = .fin v ∧
      |v - (d.n : ℚ) * r._1x / d.cycles r| ≤ (d.n : ℚ) * r._1x / d.cycles r / 2 ^ 53 ∧
      (∀ (s : ℕ) (k : ℤ), s < 2 ^ 53 → (d.n : ℚ) * r._1x / d.cycles r = (s : ℚ) * 2 ^ k →
        v = (d.n : ℚ) * r._1x / d.cycles r) := by
  have hb1 : (1 : ℚ) ≤ d.cycles r := by exact_mod_cast hB
  have hb2 : (d.cycles r : ℚ) < 2 ^ 53 := by exact_mod_cast hB53
  have ha2 : (r._1x : ℚ) < 2 ^ 53 := by exact_mod_cast hA53
  have hbne : (d.cycles r : ℚ) ≠ 0 := by linarith
  have hd1 : (1 : ℚ) ≤ d.n := by cases d <;> norm_num [Degree.n]
  have hd8 : (d.n : ℚ) ≤ 8 := by cases d <;> norm_num [Degree.n]
  have hdef : parSpeedup d r = F64.round ((d.n : ℚ) * r._1x / d.cycles r) := by
    unfold parSpeedup
    rw [F64.ofU64_exact _ hA53, F64.ofU64_exact _ hB53, F64.mul_degree d _ hA53]
    show (if (d.cycles r : ℚ) = 0 then _ else _) = _
    rw [if_neg hbne]
  rw [hdef]
  apply F64.round_spec
  rcases Nat.eq_zero_or_pos r._1x with h0 | hpos
  · left; rw [h0]; simp
  · right
    have ha1 : (1 : ℚ) ≤ r._1x := by exact_mod_cast hpos
    have hn1 : (1 : ℚ) ≤ d.n * r._1x := by nlinarith
    have hn2 : (d.n : ℚ) * r._1x ≤ 8 * 2 ^ 53 := by nlinarith
    constructor
    · rw [div_le_div_iff₀ (by positivity) (by linarith)]
      nlinarith
    · rw [div_le_iff₀ (by linarith)]
      nlinarith

/-- The sequential ratio of any row of `uint64_t` counters with a non-zero divisor. -/
theorem seqSpeedup_gen (r : seqTimings) (hB : 0 < r.shani) (hA64 : r.openssl < 2 ^ 64)
    (hB64 : r.shani < 2 ^ 64) :
    ∃ v : ℚ, seqSpeedup r = .fin v ∧
      |v - (r.openssl : ℚ) / r.shani| ≤ (r.openssl : ℚ) / r.shani / 2 ^ 51 := by
  obtain ⟨a, _, _, ha, hab, _, _, ha0, hapos⟩ := F64.ofU64_spec r.openssl hA64
  obtain ⟨b, _, _, hb, hbb, _, _, _, hbpos⟩ := F64.ofU64_spec r.shani hB64
  obtain ⟨hb1, hb2⟩ := hbpos hB
  obtain ⟨v, hv, hvb⟩ := F64.div_conv 1 le_rfl (by norm_num) r.openssl r.shani a b hB hab ha0
    hapos hbb hb1 hb2
  rw [one_mul] at hv
  rw [one_mul] at hvb
  exact ⟨v, by unfold seqSpeedup; rw [ha, hb, hv], hvb⟩

/-- The parallel ratio of any column of `uint64_t` counters with a non-zero divisor. -/
theorem parSpeedup_gen (d : Degree) (r : parallelTimings) (hB : 0 < d.cycles r)
    (hA64 : r._1x < 2 ^ 64) (hB64 : d.cycles r < 2 ^ 64) :
    ∃ v : ℚ, parSpeedup d r = .fin v ∧
      |v - (d.n : ℚ) * r._1x / d.cycles r| ≤ (d.n : ℚ) * r._1x / d.cycles r / 2 ^ 51 := by
  obtain ⟨a, s, k, ha, hab, hrep, hs, ha0, hapos⟩ := F64.ofU64_spec r._1x hA64
  obtain ⟨b, _, _, hb, hbb, _, _, _, hbpos⟩ := F64.ofU64_spec (d.cycles r) hB64
  obtain ⟨hb1, hb2⟩ := hbpos hB
  have hd1 : (1 : ℚ) ≤ d.n := by cases d <;> norm_num [Degree.n]
  have hd8 : (d.n : ℚ) ≤ 8 := by cases d <;> norm_num [Degree.n]
  have hacase : a = 0 ∨ (1 / 2 ≤ a ∧ a ≤ 2 ^ 65) := by
    rcases Nat.eq_zero_or_pos r._1x with h | h
    · exact Or.inl (ha0 h)
    · exact Or.inr (hapos h)
  obtain ⟨v, hv, hvb⟩ := F64.div_conv d.n hd1 hd8 r._1x (d.cycles r) a b hB hab ha0
    hapos hbb hb1 hb2
  refine ⟨v, ?_, hvb⟩
  unfold parSpeedup
  rw [ha, hb, F64.mul_degree_exact d a s k hrep hs hacase, hv]

/-! ## The reporter -/

theorem toU64_natCast (x : ℕ) (hx : x < 2 ^ 64) : toU64 (x : ℤ) = x := by
  unfold toU64
  omega

theorem seqLine_scenario (s : ℕ) (hs : s < 2 ^ 63) :
    seqLine ⟨s, 100, 25⟩ = ⟨s, 100, 25, .num 400⟩ := by
  obtain ⟨v, hv, _, hex⟩ := seqSpeedup_spec ⟨s, 100, 25⟩ (by norm_num) (by norm_num)
    (by norm_num)
  have h4 : v = 4 := by
    have := hex 1 2 (by norm_num) (by norm_num)
    rw [this]; norm_num
  subst h4
  have h400 : roundNE ((4 : ℚ) * 100) = 400 := by
    have : ((4 : ℚ) * 100) = ((400 : ℤ) : ℚ) := by norm_num
    rw [this, roundNE_intCast]
  have h100 : toLong 100 = 100 := toLong_small 100 (by norm_num)
  have h25 : toLong 25 = 25 := toLong_small 25 (by norm_num)
  unfold seqLine
  rw [hv]
  show SeqLine.mk (toLong s) (toLong 100) (toLong 25) (.num (roundNE ((4 : ℚ) * 100))) = _
  rw [h400, toLong_small s hs, h100, h25]

theorem scenario_row (t : ℕ → seqTimings) (m : Machine) (i : ℕ) (hi : i < 3) :
    (bench_1w scenarioWorld 3 t m).2 i = ⟨2 ^ i, 100, 25⟩ := by
  have h100 : toU64 (100 : ℤ) = 100 := toU64_natCast 100 (by norm_num)
  have h25 : toU64 (25 : ℤ) = 25 := toU64_natCast 25 (by norm_num)
  rw [bench_1w_snd, if_pos hi, toU64_shl1 i (by omega)]
  show seqTimings.mk (2 ^ i) (toU64 100) (toU64 25) = _
  rw [h100, h25]

/-- C1 (as amended). For every sequential row of `uint64_t` counters with `openssl = A`,
`shani = B` and `0 < B`, the Speedup that `print_tableSeq` computes is a finite double `v`
(the binary64 quotient of the two counters converted to `double`) and the table shows `v`
rounded to hundredths; `v` is within relative error `2^-51` of the real quotient `A / B`,
and when `A` and `B` are below `2^53` it is within `2^-53` of it and is exactly `A / B`
whenever `A / B` is a binary64 number (`s * 2^k` with `s < 2^53`). It is not the integer
quotient: for `A = 1`, `B = 2` it is `1/2`. With `MAX_SIZE_BITS = 3`, the baseline always
measuring 100 cycles and the accelerated routine 25, the table has the three rows of sizes
1, 2, 4, each showing `4.00`. -/
theorem C1_seq_speedup (r : seqTimings) (hB : 0 < r.shani) (hA64 : r.openssl < 2 ^ 64)
    (hB64 : r.shani < 2 ^ 64) (t : ℕ → seqTimings) (m : Machine) :
    (∃ v : ℚ, seqSpeedup r = .fin v ∧ (seqLine r).speedup = .num (roundNE (v * 100)) ∧
      |v - (r.openssl : ℚ) / r.shani| ≤ (r.openssl : ℚ) / r.shani / 2 ^ 51 ∧
      (r.openssl < 2 ^ 53 → r.shani < 2 ^ 53 →
        |v - (r.openssl : ℚ) / r.shani| ≤ (r.openssl : ℚ) / r.shani / 2 ^ 53 ∧
        (∀ (s : ℕ) (k : ℤ), s < 2 ^ 53 → (r.openssl : ℚ) / r.shani = (s : ℚ) * 2 ^ k →
          v = (r.openssl : ℚ) / r.shani))) ∧
    seqSpeedup ⟨1, 1, 2⟩ = .fin (1 / 2) ∧
    print_tableSeq (bench_1w scenarioWorld 3 t m).2 3
      = [⟨1, 100, 25, .num 400⟩, ⟨2, 100, 25, .num 400⟩, ⟨4, 100, 25, .num 400⟩] ∧
    (Shown.num 400).text = "4.00" := by
  refine ⟨?_, ?_, ?_, by rfl⟩
  · obtain ⟨v, hv, hb⟩ := seqSpeedup_gen r hB hA64 hB64
    refine ⟨v, hv, ?_, hb, fun hA53 hB53 => ?_⟩
    · show fmt2 (seqSpeedup r) = _
      rw [hv]; rfl
    · obtain ⟨v2, hv2, hb2, hex⟩ := seqSpeedup_spec r hB hA53 hB53
      have hvv : v = v2 := F64.fin.inj (hv.symm.trans hv2)
      rw [hvv]
      exact ⟨hb2, hex⟩
  · obtain ⟨v, hv, _, hex⟩ := seqSpeedup_spec ⟨1, 1, 2⟩ (by norm_num) (by norm_num)
      (by norm_num)
    rw [hv, hex 1 (-1) (by norm_num) (by norm_num)]
    norm_num
  · have hl : print_tableSeq (bench_1w scenarioWorld 3 t m).2 3
        = [seqLine ((bench_1w scenarioWorld 3 t m).2 0),
           seqLine ((bench_1w scenarioWorld 3 t m).2 1),
           seqLine ((bench_1w scenarioWorld 3 t m).2 2)] := rfl
    rw [hl, scenario_row t m 0 (by norm_num), scenario_row t m 1 (by norm_num),
      scenario_row t m 2 (by norm_num), seqLine_scenario (2 ^ 0) (by norm_num),
      seqLine_scenario (2 ^ 1) (by norm_num), seqLine_scenario (2 ^ 2) (by norm_num)]
    rfl

/-- Witness for C1: the row `(1, 100, 25)` of the scenario meets the hypotheses. -/
theorem C1_seq_speedup_witness :
    (0 < 25 ∧ 100 < 2 ^ 64 ∧ 25 < 2 ^ 64) ∧
    ∃ v : ℚ, seqSpeedup ⟨1, 100, 25⟩ = .fin v ∧
      (seqLine ⟨1, 100, 25⟩).speedup = .num (roundNE (v * 100)) ∧
      |v - ((100 : ℕ) : ℚ) / (25 : ℕ)| ≤ ((100 : ℕ) : ℚ) / (25 : ℕ) / 2 ^ 51 ∧
      (100 < 2 ^ 53 → 25 < 2 ^ 53 →
        |v - ((100 : ℕ) : ℚ) / (25 : ℕ)| ≤ ((100 : ℕ) : ℚ) / (25 : ℕ) / 2 ^ 53 ∧
        (∀ (s : ℕ) (k : ℤ), s < 2 ^ 53 → ((100 : ℕ) : ℚ) / (25 : ℕ) = (s : ℚ) * 2 ^ k →
          v = ((100 : ℕ) : ℚ) / (25 : ℕ))) :=
  ⟨by decide, (C1_seq_speedup ⟨1, 100, 25⟩ (by decide) (by decide) (by decide)
    (fun _ => ⟨0, 0, 0⟩) (Machine.start 0)).1⟩

/-- C1 as stated fails for the row `openssl = 3`, `shani = 200`: the computed Speedup is the
double nearest to 0.015, which is below 0.015, so it is not the real quotient `3/200`, and
the table shows `0.01` where the real quotient rounds to `0.02`. -/
theorem C1_counterexample :
    seqSpeedup ⟨1, 3, 200⟩ ≠ .fin (3 / 200) ∧
    seqSpeedup ⟨1, 3, 200⟩ = .fin (1080863910568919 / 72057594037927936) ∧
    (seqLine ⟨1, 3, 200⟩).speedup = .num 1 ∧
    fmt2 (.fin (3 / 200)) = .num 2 := by
  decide!

/-- C2 (as amended). For every parallel row of `uint64_t` counters and every column
`N ∈ {1, 2, 4, 8}` whose cycle count `B` is non-zero, with `A = cycles_1x`, the speedup that
`print_tableParallel` computes is a finite double `v` (the binary64 value of
`N.0 * A / (double) B`), shown rounded to hundredths; `v` is within relative error `2^-51`
of the real quotient `N * A / B`, with no other factor applied, and when `A` and `B` are
below `2^53` it is within `2^-53` of it and is exactly `N * A / B` whenever that is a
binary64 number. A row with `cycles_1x = 800` and `cycles_8x = 200` gives exactly 32 in the
`8x` column, shown as `32.00`. -/
theorem C2_par_speedup (d : Degree) (r : parallelTimings) (hB : 0 < d.cycles r)
    (hA64 : r._1x < 2 ^ 64) (hB64 : d.cycles r < 2 ^ 64) (sz c2 c4 : ℕ) :
    (∃ v : ℚ, parSpeedup d r = .fin v ∧
      |v - (d.n : ℚ) * r._1x / d.cycles r| ≤ (d.n : ℚ) * r._1x / d.cycles r / 2 ^ 51 ∧
      (r._1x < 2 ^ 53 → d.cycles r < 2 ^ 53 →
        |v - (d.n : ℚ) * r._1x / d.cycles r| ≤ (d.n : ℚ) * r._1x / d.cycles r / 2 ^ 53 ∧
        (∀ (s : ℕ) (k : ℤ), s < 2 ^ 53 →
          (d.n : ℚ) * r._1x / d.cycles r = (s : ℚ) * 2 ^ k →
          v = (d.n : ℚ) * r._1x / d.cycles r))) ∧
    (parLine r).s1x = fmt2 (parSpeedup .x1 r) ∧ (parLine r).s2x = fmt2 (parSpeedup .x2 r) ∧
    (parLine r).s4x = fmt2 (parSpeedup .x4 r) ∧ (parLine r).s8x = fmt2 (parSpeedup .x8 r) ∧
    parSpeedup .x8 ⟨sz, 800, c2, c4, 200⟩ = .fin 32 ∧
    (parLine ⟨sz, 800, c2, c4, 200⟩).s8x = .num 3200 ∧
    (Shown.num 3200).text = "32.00" := by
  have h32 : parSpeedup .x8 ⟨sz, 800, c2, c4, 200⟩ = .fin 32 := by
    obtain ⟨v, hv, _, hex⟩ := parSpeedup_spec .x8 ⟨sz, 800, c2, c4, 200⟩
      (by norm_num [Degree.cycles]) (by norm_num) (by norm_num [Degree.cycles])
    rw [hv, hex 1 5 (by norm_num) (by norm_num [Degree.cycles, Degree.n])]
    norm_num [Degree.cycles, Degree.n]
  refine ⟨?_, rfl, rfl, rfl, rfl, h32, ?_, by rfl⟩
  · obtain ⟨v, hv, hb⟩ := parSpeedup_gen d r hB hA64 hB64
    refine ⟨v, hv, hb, fun hA53 hB53 => ?_⟩
    obtain ⟨v2, hv2, hb2, hex⟩ := parSpeedup_spec d r hB hA53 hB53
    have hvv : v = v2 := F64.fin.inj (hv.symm.trans hv2)
    rw [hvv]
    exact ⟨hb2, hex⟩
  · show fmt2 (parSpeedup .x8 ⟨sz, 800, c2, c4, 200⟩) = _
    rw [h32]
    show Shown.num (roundNE ((32 : ℚ) * 100)) = _
    have : ((32 : ℚ) * 100) = ((3200 : ℤ) : ℚ) := by norm_num
    rw [this, roundNE_intCast]

/-- Witness for C2: the `8x` column of the row with `cycles_1x = 800`, `cycles_8x = 200`
meets the hypotheses. -/
theorem C2_par_speedup_witness :
    (0 < 200 ∧ 800 < 2 ^ 64 ∧ 200 < 2 ^ 64) ∧
    parSpeedup .x8 ⟨64, 800, 600, 400, 200⟩ = .fin 32 :=
  ⟨by decide, (C2_par_speedup .x8 ⟨64, 800, 600, 400, 200⟩ (by decide) (by decide)
    (by decide) 64 600 400).2.2.2.2.2.1⟩

/-- C2 as stated fails for the `2x` column of a row with `cycles_1x = 3`, `cycles_2x = 400`:
the computed speedup is the double nearest to 0.015, not the real quotient `2 * 3 / 400`,
and the table shows `0.01` where the real quotient rounds to `0.02`. -/
theorem C2_counterexample :
    parSpeedup .x2 ⟨1, 3, 400, 1, 1⟩ ≠ .fin (2 * 3 / 400) ∧
    parSpeedup .x2 ⟨1, 3, 400, 1, 1⟩ = .fin (1080863910568919 / 72057594037927936) ∧
    (parLine ⟨1, 3, 400, 1, 1⟩).s2x = .num 1 ∧
    fmt2 (.fin (2 * 3 / 400)) = .num 2 := by
  decide!

theorem F64.round_bounds (q : ℚ) (hlo : 1 / 2 ^ 70 ≤ q) (hhi : q ≤ 2 ^ 70) :
    ∃ v : ℚ, F64.round q = .fin v ∧ q / 2 ≤ v ∧ v ≤ 2 * q := by
  obtain ⟨v, hv, hb, _⟩ := F64.round_spec q (Or.inr ⟨hlo, hhi⟩)
  have hq : 0 < q := lt_of_lt_of_le (by norm_num) hlo
  have hb' := abs_le.1 hb
  have h53 : q / 2 ^ 53 ≤ q / 2 :=
    div_le_div_of_nonneg_left hq.le (by norm_num) (by norm_num)
  exact ⟨v, hv, by linarith [hb'.1], by linarith [hb'.2]⟩

/-- A quotient of two finite doubles of moderate size, the divisor positive, is finite. -/
theorem F64.div_fin (a b : ℚ) (ha : a = 0 ∨ (1 / 4 ≤ a ∧ a ≤ 2 ^ 69)) (hb1 : 1 / 2 ≤ b)
    (hb2 : b ≤ 2 ^ 65) : ∃ v : ℚ, F64.div (.fin a) (.fin b) = .fin v := by
  have hbne : b ≠ 0 := by linarith
  show ∃ v : ℚ, (if b = 0 then _ else F64.round (a / b)) = .fin v
  rw [if_neg hbne]
  rcases ha with ha | ⟨ha1, ha2⟩
  · subst ha
    exact ⟨0, by rw [zero_div, F64.round_zero]⟩
  · have hbpos : 0 < b := by linarith
    obtain ⟨v, hv, _⟩ := F64.round_bounds (a / b)
      (by rw [div_le_div_iff₀ (by positivity) hbpos]; nlinarith)
      (by rw [div_le_iff₀ hbpos]; nlinarith)
    exact ⟨v, hv⟩

/-- A quotient by the double zero is a NaN for a zero dividend and `+∞` otherwise. -/
theorem F64.div_zero (a : ℚ) :
    F64.div (.fin a) (.fin 0) = if a = 0 then .nan else .inf := rfl

theorem F64.mul_degree_fin (d : Degree) (a : ℚ) (ha : a = 0 ∨ (1 / 2 ≤ a ∧ a ≤ 2 ^ 65)) :
    ∃ v : ℚ, F64.mul (.fin d.n) (.fin a) = .fin v ∧ (a = 0 → v = 0) ∧
      (a ≠ 0 → 1 / 4 ≤ v ∧ v ≤ 2 ^ 69) := by
  have hd1 : (1 : ℚ) ≤ d.n := by cases d <;> norm_num [Degree.n]
  have hd8 : (d.n : ℚ) ≤ 8 := by cases d <;> norm_num [Degree.n]
  show ∃ v : ℚ, F64.round ((d.n : ℚ) * a) = .fin v ∧ _
  rcases ha with ha | ⟨ha1, ha2⟩
  · subst ha
    exact ⟨0, by rw [mul_zero, F64.round_zero], fun _ => rfl, fun h => absurd rfl h⟩
  · obtain ⟨v, hv, h1, h2⟩ := F64.round_bounds ((d.n : ℚ) * a) (by nlinarith) (by nlinarith)
    refine ⟨v, hv, fun h => ?_, fun _ => ⟨by nlinarith, by nlinarith⟩⟩
    rw [h] at ha1; norm_num at ha1

/-- The values of the two ratios on a row of `uint64_t` counters: a NaN or `+∞` for a zero
divisor, a finite double otherwise. -/
theorem ratio_values (r : seqTimings) (p : parallelTimings) (d : Degree)
    (hr1 : r.openssl < 2 ^ 64) (hr2 : r.shani < 2 ^ 64) (hp1 : p._1x < 2 ^ 64)
    (hp2 : d.cycles p < 2 ^ 64) :
    (r.shani = 0 → seqSpeedup r = (if r.openssl = 0 then .nan else .inf)) ∧
    (r.shani ≠ 0 → ∃ v : ℚ, seqSpeedup r = .fin v) ∧
    (d.cycles p = 0 → parSpeedup d p = (if p._1x = 0 then .nan else .inf)) ∧
    (d.cycles p ≠ 0 → ∃ v : ℚ, parSpeedup d p = .fin v) := by
  obtain ⟨a, ha, ha0, hapos⟩ := F64.ofU64_fin r.openssl hr1
  obtain ⟨b, hb, hb0, hbpos⟩ := F64.ofU64_fin r.shani hr2
  obtain ⟨x, hx, hx0, hxpos⟩ := F64.ofU64_fin p._1x hp1
  obtain ⟨y, hy, hy0, hypos⟩ := F64.ofU64_fin (d.cycles p) hp2
  have hxcase : x = 0 ∨ (1 / 2 ≤ x ∧ x ≤ 2 ^ 65) := by
    rcases Nat.eq_zero_or_pos p._1x with h | h
    · exact Or.inl (hx0 h)
    · exact Or.inr (hxpos h)
  obtain ⟨z, hz, hz0, hzpos⟩ := F64.mul_degree_fin d x hxcase
  refine ⟨?_, ?_, ?_, ?_⟩
  · intro h0
    unfold seqSpeedup
    rw [ha, hb, hb0 h0, F64.div_zero]
    rcases Nat.eq_zero_or_pos r.openssl with h | h
    · rw [if_pos (ha0 h), if_pos h]
    · have := (hapos h).1
      rw [if_neg (by linarith), if_neg h.ne']
  · intro hne
    unfold seqSpeedup
    rw [ha, hb]
    have hbb := hbpos (Nat.pos_of_ne_zero hne)
    apply F64.div_fin _ _ _ hbb.1 hbb.2
    rcases Nat.eq_zero_or_pos r.openssl with h | h
    · exact Or.inl (ha0 h)
    · have := hapos h
      exact Or.inr ⟨by linarith, by linarith⟩
  · intro h0
    unfold parSpeedup
    rw [hx, hy, hy0 h0, hz, F64.div_zero]
    rcases Nat.eq_zero_or_pos p._1x with h | h
    · rw [if_pos (hz0 (hx0 h)), if_pos h]
    · have hxne : x ≠ 0 := by have := (hxpos h).1; linarith
      have := (hzpos hxne).1
      rw [if_neg (by linarith), if_neg h.ne']
  · intro hne
    unfold parSpeedup
    rw [hx, hy, hz]
    have hyy := hypos (Nat.pos_of_ne_zero hne)
    apply F64.div_fin _ _ _ hyy.1 hyy.2
    by_cases hx' : x = 0
    · exact Or.inl (hz0 hx')
    · exact Or.inr (hzpos hx')

/-- C5. The ratio computations of the two printers are defined on every row of `uint64_t`
counters, and the printed line carries the result. The line `print_tableSeq` writes for a
row holds the three counters and, in the Speedup field, the `%9.2f` rendering of the
ratio: for `shani = 0` the ratio is a NaN (`openssl = 0`) or `+∞` (otherwise) and the field
shows that NaN or infinity; for `shani ≠ 0` the ratio is a finite double and the field shows
its hundredths. The line `print_tableParallel` writes holds the size and the renderings of
the four ratios; for a column whose cycle count is 0 the ratio is a NaN (`_1x = 0`) or `+∞`
and the column shows it, otherwise it is finite and the column shows its hundredths. Both
printers write exactly one such line per row, line `i` computed from row `i` alone, so the
rows next to a degenerate one are rendered as usual. -/
theorem C5_ratio_defined (r : seqTimings) (p : parallelTimings) (d : Degree)
    (hr1 : r.openssl < 2 ^ 64) (hr2 : r.shani < 2 ^ 64) (hp1 : p._1x < 2 ^ 64)
    (hp2 : d.cycles p < 2 ^ 64) (tabS : ℕ → seqTimings) (tabP : ℕ → parallelTimings)
    (items : ℕ) :
    seqLine r = ⟨toLong r.size, toLong r.openssl, toLong r.shani, fmt2 (seqSpeedup r)⟩ ∧
    (r.shani = 0 → seqSpeedup r = (if r.openssl = 0 then .nan else .inf) ∧
      (seqLine r).speedup = (if r.openssl = 0 then Shown.nan else Shown.inf)) ∧
    (r.shani ≠ 0 → ∃ v : ℚ, seqSpeedup r = .fin v ∧
      (seqLine r).speedup = .num (roundNE (v * 100))) ∧
    parLine p = ⟨toLong p.size, fmt2 (parSpeedup .x1 p), fmt2 (parSpeedup .x2 p),
      fmt2 (parSpeedup .x4 p), fmt2 (parSpeedup .x8 p)⟩ ∧
    (d.cycles p = 0 → parSpeedup d p = (if p._1x = 0 then .nan else .inf) ∧
      fmt2 (parSpeedup d p) = (if p._1x = 0 then Shown.nan else Shown.inf)) ∧
    (d.cycles p ≠ 0 → ∃ v : ℚ, parSpeedup d p = .fin v ∧
      fmt2 (parSpeedup d p) = .num (roundNE (v * 100))) ∧
    (print_tableSeq tabS items).length = items ∧
    (∀ i, i < items → (print_tableSeq tabS items)[i]?
      = some ⟨toLong (tabS i).size, toLong (tabS i).openssl, toLong (tabS i).shani,
          fmt2 (seqSpeedup (tabS i))⟩) ∧
    (print_tableParallel tabP items).length = items ∧
    (∀ i, i < items → (print_tableParallel tabP items)[i]?
      = some ⟨toLong (tabP i).size, fmt2 (parSpeedup .x1 (tabP i)),
          fmt2 (parSpeedup .x2 (tabP i)), fmt2 (parSpeedup .x4 (tabP i)),
          fmt2 (parSpeedup .x8 (tabP i))⟩) := by
  obtain ⟨hs0, hs1, hp0, hp1'⟩ := ratio_values r p d hr1 hr2 hp1 hp2
  refine ⟨rfl, ?_, ?_, rfl, ?_, ?_, ?_, ?_, ?_, ?_⟩
  · intro h0
    refine ⟨hs0 h0, ?_⟩
    show fmt2 (seqSpeedup r) = _
    rw [hs0 h0]
    by_cases h : r.openssl = 0
    · rw [if_pos h, if_pos h]; rfl
    · rw [if_neg h, if_neg h]; rfl
  · intro hne
    obtain ⟨v, hv⟩ := hs1 hne
    refine ⟨v, hv, ?_⟩
    show fmt2 (seqSpeedup r) = _
    rw [hv]; rfl
  · intro h0
    refine ⟨hp0 h0, ?_⟩
    rw [hp0 h0]
    by_cases h : p._1x = 0
    · rw [if_pos h, if_pos h]; rfl
    · rw [if_neg h, if_neg h]; rfl
  · intro hne
    obtain ⟨v, hv⟩ := hp1' hne
    refine ⟨v, hv, ?_⟩
    rw [hv]; rfl
  · simp [print_tableSeq]
  · intro i hi
    have h : (print_tableSeq tabS items)[i]? = some (seqLine (tabS i)) := by
      simp [print_tableSeq, List.getElem?_map, List.getElem?_range hi]
    rw [h]; rfl
  · simp [print_tableParallel]
  · intro i hi
    have h : (print_tableParallel tabP items)[i]? = some (parLine (tabP i)) := by
      simp [print_tableParallel, List.getElem?_map, List.getElem?_range hi]
    rw [h]; rfl

/-- Witness for C5: a three-row sequential table whose middle row has `shani = 0` and a
parallel row with `_4x = 0` meet the hypotheses. The degenerate row prints `+∞` in its
Speedup field, the `4x` column prints `+∞`, and the rows before and after the degenerate
one are printed from their own counters. -/
theorem C5_ratio_defined_witness :
    (seqLine ⟨2, 5, 0⟩).speedup = Shown.inf ∧
    fmt2 (parSpeedup .x4 ⟨1, 9, 3, 0, 7⟩) = Shown.inf ∧
    (print_tableSeq (fun i => if i = 1 then ⟨2, 5, 0⟩ else ⟨2 ^ i, 100, 25⟩) 3).length = 3 ∧
    (print_tableSeq (fun i => if i = 1 then ⟨2, 5, 0⟩ else ⟨2 ^ i, 100, 25⟩) 3)[0]?
      = some ⟨toLong 1, toLong 100, toLong 25, fmt2 (seqSpeedup ⟨1, 100, 25⟩)⟩ ∧
    (print_tableSeq (fun i => if i = 1 then ⟨2, 5, 0⟩ else ⟨2 ^ i, 100, 25⟩) 3)[1]?
      = some ⟨toLong 2, toLong 5, toLong 0, fmt2 (seqSpeedup ⟨2, 5, 0⟩)⟩ ∧
    (print_tableSeq (fun i => if i = 1 then ⟨2, 5, 0⟩ else ⟨2 ^ i, 100, 25⟩) 3)[2]?
      = some ⟨toLong 4, toLong 100, toLong 25, fmt2 (seqSpeedup ⟨4, 100, 25⟩)⟩ :=
  have h := C5_ratio_defined ⟨2, 5, 0⟩ ⟨1, 9, 3, 0, 7⟩ .x4 (by decide) (by decide)
    (by decide) (by decide) (fun i => if i = 1 then ⟨2, 5, 0⟩ else ⟨2 ^ i, 100, 25⟩)
    (fun _ => ⟨1, 9, 3, 0, 7⟩) 3
  ⟨(h.2.1 rfl).2, (h.2.2.2.2.1 rfl).2, h.2.2.2.2.2.2.1,
    h.2.2.2.2.2.2.2.1 0 (by decide), h.2.2.2.2.2.2.2.1 1 (by decide),
    h.2.2.2.2.2.2.2.1 2 (by decide)⟩

/-! ## The runners -/

theorem sizes_1W {Row : Type} (W : World) (maxBits : ℕ) (hmax : maxBits ≤ 31) (FUNC : Func)
    (message : ℕ) (setSize IMPL : Row → ℕ → Row) (m : Machine) (t : ℕ → Row) :
    (timedCalls (newEvents m
        (BENCH_SIZE_1W W maxBits FUNC message setSize IMPL (m, t)).1)).map
        (fun c => c.1.message_size)
      = (List.range maxBits).map (fun j : ℕ => (2 : ℤ) ^ j) := by
  rw [newEvents_1W, timedCalls_sizeEvents, List.map_map, ← map_shl1 maxBits hmax]
  rfl

theorem sizes_NW (W : World) (maxBits : ℕ) (hmax : maxBits ≤ 31) (FUNC : Func)
    (N : Degree) (m : Machine) (t : ℕ → parallelTimings) :
    (timedCalls (newEvents m (BENCH_SIZE_NW W maxBits FUNC N (m, t)).1)).map
        (fun c => c.1.message_size)
      = (List.range maxBits).map (fun j : ℕ => (2 : ℤ) ^ j) := by
  rw [newEvents_NW, timedCalls_nwEvents, List.map_map, ← map_shl1 maxBits hmax]
  rfl

/-- C3. In every pass (an expansion of `BENCH_SIZE_1W` into either table, or of
`BENCH_SIZE_NW`, with at most 31 sizes) the message lengths handed to the hash routine
are, in order, `2^0, 2^1, ..., 2^(maxBits-1)`; each `2^i` lies in `[1, 2^(maxBits-1)]`; and
after the pass row `i` holds `size = 2^i`. -/
theorem C3_sizes (W : World) (maxBits : ℕ) (hmax : maxBits ≤ 31) (FUNC : Func) (message : ℕ)
    (N : Degree) (m : Machine) (ts : ℕ → seqTimings) (tp : ℕ → parallelTimings) (i : ℕ)
    (hi : i < maxBits) :
    ((timedCalls (newEvents m (BENCH_SIZE_1W W maxBits FUNC message
          seqTimings.setSize seqTimings.setOpenssl (m, ts)).1)).map (fun c => c.1.message_size)
        = (List.range maxBits).map (fun j : ℕ => (2 : ℤ) ^ j) ∧
      ((BENCH_SIZE_1W W maxBits FUNC message
          seqTimings.setSize seqTimings.setOpenssl (m, ts)).2 i).size = 2 ^ i) ∧
    ((timedCalls (newEvents m (BENCH_SIZE_1W W maxBits FUNC message
          seqTimings.setSize seqTimings.setShani (m, ts)).1)).map (fun c => c.1.message_size)
        = (List.range maxBits).map (fun j : ℕ => (2 : ℤ) ^ j) ∧
      ((BENCH_SIZE_1W W maxBits FUNC message
          seqTimings.setSize seqTimings.setShani (m, ts)).2 i).size = 2 ^ i) ∧
    ((timedCalls (newEvents m (BENCH_SIZE_1W W maxBits FUNC message
          parallelTimings.setSize Degree.x1.set (m, tp)).1)).map (fun c => c.1.message_size)
        = (List.range maxBits).map (fun j : ℕ => (2 : ℤ) ^ j) ∧
      ((BENCH_SIZE_1W W maxBits FUNC message
          parallelTimings.setSize Degree.x1.set (m, tp)).2 i).size = 2 ^ i) ∧
    ((timedCalls (newEvents m (BENCH_SIZE_NW W maxBits FUNC N (m, tp)).1)).map
          (fun c => c.1.message_size)
        = (List.range maxBits).map (fun j : ℕ => (2 : ℤ) ^ j) ∧
      ((BENCH_SIZE_NW W maxBits FUNC N (m, tp)).2 i).size = 2 ^ i) ∧
    (1 ≤ 2 ^ i ∧ 2 ^ i ≤ 2 ^ (maxBits - 1)) := by
  have hi30 : i ≤ 30 := by omega
  refine ⟨⟨sizes_1W W maxBits hmax _ _ _ _ m ts, ?_⟩, ⟨sizes_1W W maxBits hmax _ _ _ _ m ts, ?_⟩,
    ⟨sizes_1W W maxBits hmax _ _ _ _ m tp, ?_⟩, ⟨sizes_NW W maxBits hmax _ _ m tp, ?_⟩,
    Nat.one_le_two_pow, Nat.pow_le_pow_right (by norm_num) (by omega)⟩
  · rw [BENCH_SIZE_1W_eq]
    simp only [if_pos hi, toU64_shl1 i hi30, seqTimings.setSize, seqTimings.setOpenssl]
  · rw [BENCH_SIZE_1W_eq]
    simp only [if_pos hi, toU64_shl1 i hi30, seqTimings.setSize, seqTimings.setShani]
  · rw [BENCH_SIZE_1W_eq]
    simp only [if_pos hi, toU64_shl1 i hi30, parallelTimings.setSize, Degree.set]
  · rw [BENCH_SIZE_NW_eq]
    simp only [if_pos hi, toU64_shl1 i hi30, parallelTimings.setSize]
    cases N <;> rfl

/-- Witness for C3: the configured seven sizes and row 6 meet the hypotheses; the last
length is 64, the largest tested. -/
theorem C3_sizes_witness :
    ((BENCH_SIZE_NW scenarioWorld MAX_SIZE_BITS .sha256_x8_update_shani_8x .x8
        (Machine.start 0, fun _ => ⟨0, 0, 0, 0, 0⟩)).2 6).size = 2 ^ 6 ∧
    (1 ≤ 2 ^ 6 ∧ 2 ^ 6 ≤ 2 ^ (MAX_SIZE_BITS - 1)) :=
  have h := C3_sizes scenarioWorld MAX_SIZE_BITS (by decide) .sha256_x8_update_shani_8x 0 .x8
    (Machine.start 0) (fun _ => ⟨0, 0, 0⟩) (fun _ => ⟨0, 0, 0, 0, 0⟩) 6 (by decide)
  ⟨h.2.2.2.1.2, h.2.2.2.2⟩

/-- C9. With the configured seven sizes, the iteration counts `BENCH_TIMES` in scope at the
timed calls of a `BENCH_SIZE_1W` pass and of a `BENCH_SIZE_NW` pass are, in order,
`512 - 20*i` for `i = 0, ..., 6`; at every index `i < 7` the count is `512 - 20*i`, is at least
392 (hence at least 1), equals 392 at `i = 6`, and is larger than at any later index. -/
theorem C9_iterations {Row : Type} (W : World) (FUNC : Func) (message : ℕ)
    (setSize IMPL : Row → ℕ → Row) (N : Degree) (m : Machine) (t : ℕ → Row)
    (tp : ℕ → parallelTimings) (i j : ℕ) (hij : i < j) (hj : j < MAX_SIZE_BITS) :
    (timedCalls (newEvents m (BENCH_SIZE_1W W MAX_SIZE_BITS FUNC message setSize IMPL
        (m, t)).1)).map (fun c => c.1.BENCH_TIMES)
      = (List.range MAX_SIZE_BITS).map (fun k : ℕ => (512 : ℤ) - 20 * (k : ℤ)) ∧
    (timedCalls (newEvents m (BENCH_SIZE_NW W MAX_SIZE_BITS FUNC N (m, tp)).1)).map
        (fun c => c.1.BENCH_TIMES)
      = (List.range MAX_SIZE_BITS).map (fun k : ℕ => (512 : ℤ) - 20 * (k : ℤ)) ∧
    benchTimes i = 512 - 20 * (i : ℤ) ∧ benchTimes j = 512 - 20 * (j : ℤ) ∧
    benchTimes j < benchTimes i ∧ 1 ≤ benchTimes j ∧ 392 ≤ benchTimes j ∧
    benchTimes 6 = 392 := by
  have h7 : MAX_SIZE_BITS = 7 := rfl
  rw [h7] at hj ⊢
  have hi' := benchTimes_eq i (by omega)
  have hj' := benchTimes_eq j (by omega)
  refine ⟨?_, ?_, hi', hj', by omega, by omega, by omega, benchTimes_eq 6 (by norm_num)⟩
  · rw [newEvents_1W, timedCalls_sizeEvents, List.map_map, ← map_benchTimes 7 (by norm_num)]
    rfl
  · rw [newEvents_NW, timedCalls_nwEvents, List.map_map, ← map_benchTimes 7 (by norm_num)]
    rfl

/-- Witness for C9: the indices 5 and 6 meet the hypotheses. -/
theorem C9_iterations_witness :
    benchTimes 6 < benchTimes 5 ∧ 1 ≤ benchTimes 6 :=
  have h := C9_iterations scenarioWorld .SHA256 0 seqTimings.setSize seqTimings.setOpenssl .x2
    (Machine.start 0) (fun _ => ⟨0, 0, 0⟩) (fun _ => ⟨0, 0, 0, 0, 0⟩) 5 6 (by decide)
    (by decide)
  ⟨h.2.2.2.2.1, h.2.2.2.2.2.1⟩

theorem bench_Nw_filter (W : World) (n : ℕ) (t : ℕ → parallelTimings) (m : Machine)
    (d : Degree) :
    ∃ calls, (timedCalls (newEvents m (bench_Nw W n t m).1)).filter
        (fun c => c.1.func = d.func) = colTimed W m d calls n ∧
      ∀ i, i < n → d.cycles ((bench_Nw W n t m).2 i)
        = toU64 (W.cycles (calls + i) (nwCall m d i)) := by
  rw [timed_bench_Nw]
  simp only [List.filter_append]
  cases d
  · refine ⟨m.calls, ?_, fun i hi => ?_⟩
    · rw [colTimed_filter_same, colTimed_filter_other _ _ _ _ (by decide),
        colTimed_filter_other _ _ _ _ (by decide), colTimed_filter_other _ _ _ _ (by decide)]
      simp
    · rw [bench_Nw_snd, if_pos hi]; rfl
  · refine ⟨m.calls + n, ?_, fun i hi => ?_⟩
    · rw [colTimed_filter_same, colTimed_filter_other _ _ _ _ (by decide),
        colTimed_filter_other _ _ _ _ (by decide), colTimed_filter_other _ _ _ _ (by decide)]
      simp
    · rw [bench_Nw_snd, if_pos hi]; rfl
  · refine ⟨m.calls + n + n, ?_, fun i hi => ?_⟩
    · rw [colTimed_filter_same, colTimed_filter_other _ _ _ _ (by decide),
        colTimed_filter_other _ _ _ _ (by decide), colTimed_filter_other _ _ _ _ (by decide)]
      simp
    · rw [bench_Nw_snd, if_pos hi]; rfl
  · refine ⟨m.calls + n + n + n, ?_, fun i hi => ?_⟩
    · rw [colTimed_filter_same, colTimed_filter_other _ _ _ _ (by decide),
        colTimed_filter_other _ _ _ _ (by decide), colTimed_filter_other _ _ _ _ (by decide)]
      simp
    · rw [bench_Nw_snd, if_pos hi]; rfl

/-- C4. In `bench_Nw` (at most 31 sizes) the size column reads `2^i` in row `i` after the
`1x` pass and after each of the `2x`, `4x` and `8x` passes, so no later pass changes a size
an earlier pass wrote; and for every column the timed calls of that column's routine, in
order, ran at the message length in the `size` field of rows `0, 1, ...` and measured the
cycles that column holds in those rows of the table handed to `print_tableParallel`. -/
theorem C4_parallel_alignment (W : World) (maxBits : ℕ) (hmax : maxBits ≤ 31)
    (t : ℕ → parallelTimings) (m : Machine) (d : Degree) :
    let a := _mm_malloc (toU64 (shl1 maxBits)) m
    let s1 := BENCH_SIZE_1W W maxBits .sha256_update_shani a.1
      parallelTimings.setSize Degree.x1.set (a.2, t)
    let s2 := BENCH_SIZE_NW W maxBits .sha256_x2_update_shani_2x .x2 s1
    let s4 := BENCH_SIZE_NW W maxBits .sha256_x4_update_shani_4x .x4 s2
    let s8 := BENCH_SIZE_NW W maxBits .sha256_x8_update_shani_8x .x8 s4
    (bench_Nw W maxBits t m).2 = s8.2 ∧
    (∀ i, i < maxBits → (s1.2 i).size = 2 ^ i ∧ (s2.2 i).size = 2 ^ i ∧
      (s4.2 i).size = 2 ^ i ∧ (s8.2 i).size = 2 ^ i) ∧
    ((timedCalls (newEvents m (bench_Nw W maxBits t m).1)).filter
        (fun c => c.1.func = d.func)).map (fun c => (toU64 c.1.message_size, toU64 c.2))
      = (List.range maxBits).map (fun i =>
          (((bench_Nw W maxBits t m).2 i).size, d.cycles ((bench_Nw W maxBits t m).2 i))) := by
  intro a s1 s2 s4 s8
  refine ⟨?_, ?_, ?_⟩
  · simp only [bench_Nw, s8, s4, s2, s1, a]
  · intro i hi
    have hi30 : i ≤ 30 := by omega
    have h1 : (s1.2 i).size = 2 ^ i := by
      simp only [s1, BENCH_SIZE_1W_eq, if_pos hi, toU64_shl1 i hi30, parallelTimings.setSize,
        Degree.set]
    have hN : ∀ (F : Func) (N : Degree) (s : Machine × (ℕ → parallelTimings)),
        ((BENCH_SIZE_NW W maxBits F N s).2 i).size = 2 ^ i := by
      intro F N s
      obtain ⟨m', t'⟩ := s
      rw [BENCH_SIZE_NW_eq]
      simp only [if_pos hi, toU64_shl1 i hi30, parallelTimings.setSize]
      cases N <;> rfl
    exact ⟨h1, hN _ _ _, hN _ _ _, hN _ _ _⟩
  · obtain ⟨calls, hf, hc⟩ := bench_Nw_filter W maxBits t m d
    rw [hf, colTimed, List.map_map]
    apply List.map_congr_left
    intro i hi
    have hi' := List.mem_range.1 hi
    simp only [Function.comp, nwCall_size, hc i hi']
    rw [bench_Nw_snd, if_pos hi']

/-- Witness for C4: the configured seven sizes meet the hypothesis; the `8x` calls ran at
the sizes of the rows and measured what the `_8x` column holds. -/
theorem C4_parallel_alignment_witness :
    ((timedCalls (newEvents (Machine.start 0) (bench_Nw scenarioWorld MAX_SIZE_BITS
        (fun _ => ⟨0, 0, 0, 0, 0⟩) (Machine.start 0)).1)).filter
        (fun c => c.1.func = Degree.x8.func)).map (fun c => (toU64 c.1.message_size, toU64 c.2))
      = (List.range MAX_SIZE_BITS).map (fun i =>
          (((bench_Nw scenarioWorld MAX_SIZE_BITS (fun _ => ⟨0, 0, 0, 0, 0⟩)
              (Machine.start 0)).2 i).size,
            Degree.x8.cycles ((bench_Nw scenarioWorld MAX_SIZE_BITS (fun _ => ⟨0, 0, 0, 0, 0⟩)
              (Machine.start 0)).2 i))) :=
  (C4_parallel_alignment scenarioWorld MAX_SIZE_BITS (by decide) (fun _ => ⟨0, 0, 0, 0, 0⟩)
    (Machine.start 0) .x8).2.2

/-- C7. In a run of `main` started with capability word `w`, the harness stores to `c[1]`
exactly once, the value `w AND 0x10000000`: the store comes after the seven timed calls of
the first baseline pass (which ran with `w`) and before the seven of the second baseline
pass; every timed call after the store, to the end of `main`, runs with `w AND 0x10000000`,
which is also the final value; and bit 29 of that value is 0. -/
theorem C7_cap_once (W : World) (seq0 : ℕ → seqTimings) (par0 : ℕ → parallelTimings)
    (m : Machine) :
    capStores (newEvents m (main W seq0 par0 m)) = [m.cap &&& 0x10000000] ∧
    (∃ pre post : List Event,
      newEvents m (main W seq0 par0 m) = pre ++ [.capStore (m.cap &&& 0x10000000)] ++ post ∧
      capStores pre = [] ∧ capStores post = [] ∧
      (timedCalls pre).map (fun c => (c.1.func, c.1.cap))
        = List.replicate MAX_SIZE_BITS (Func.SHA256, m.cap) ∧
      ((timedCalls post).take MAX_SIZE_BITS).map (fun c => (c.1.func, c.1.cap))
        = List.replicate MAX_SIZE_BITS (Func.SHA256, m.cap &&& 0x10000000) ∧
      (∀ c ∈ timedCalls post, c.1.cap = m.cap &&& 0x10000000)) ∧
    (main W seq0 par0 m).cap = m.cap &&& 0x10000000 ∧
    (m.cap &&& 0x10000000).testBit 29 = false := by
  have h1 := bench_1w_fst W MAX_SIZE_BITS seq0 m
  have htr1 : (bench_1w W MAX_SIZE_BITS seq0 m).1.trace = _ := congrArg Machine.trace h1
  have hcap1 : (bench_1w W MAX_SIZE_BITS seq0 m).1.cap = m.cap &&& 0x10000000 :=
    congrArg Machine.cap h1
  have hcalls1 : (bench_1w W MAX_SIZE_BITS seq0 m).1.calls
      = m.calls + MAX_SIZE_BITS + MAX_SIZE_BITS + MAX_SIZE_BITS := congrArg Machine.calls h1
  have h2 := bench_Nw_trace W MAX_SIZE_BITS par0 (bench_1w W MAX_SIZE_BITS seq0 m).1
  have hnew2 := newEvents_append _ _ _ h2
  have hmain : newEvents m (main W seq0 par0 m)
      = ([.malloc m.next (toU64 (shl1 MAX_SIZE_BITS))]
          ++ sizeEvents W .SHA256 [m.next] .stack m.cap m.calls MAX_SIZE_BITS)
        ++ [.capStore (m.cap &&& 0x10000000)]
        ++ (sizeEvents W .SHA256 [m.next] .stack (m.cap &&& 0x10000000)
              (m.calls + MAX_SIZE_BITS) MAX_SIZE_BITS
          ++ (sizeEvents W .sha256_update_shani [m.next] .stack (m.cap &&& 0x10000000)
              (m.calls + MAX_SIZE_BITS + MAX_SIZE_BITS) MAX_SIZE_BITS
          ++ [.tableSeq (print_tableSeq (bench_1w W MAX_SIZE_BITS seq0 m).2 MAX_SIZE_BITS)]
          ++ [.free m.next]
          ++ newEvents (bench_1w W MAX_SIZE_BITS seq0 m).1
              (bench_Nw W MAX_SIZE_BITS par0 (bench_1w W MAX_SIZE_BITS seq0 m).1).1)) := by
    apply newEvents_append
    show (bench_Nw W MAX_SIZE_BITS par0 (bench_1w W MAX_SIZE_BITS seq0 m).1).1.trace = _
    rw [hnew2, h2, htr1]
    simp only [List.append_assoc]
  have hpost : capStores (sizeEvents W .SHA256 [m.next] .stack (m.cap &&& 0x10000000)
              (m.calls + MAX_SIZE_BITS) MAX_SIZE_BITS
          ++ (sizeEvents W .sha256_update_shani [m.next] .stack (m.cap &&& 0x10000000)
              (m.calls + MAX_SIZE_BITS + MAX_SIZE_BITS) MAX_SIZE_BITS
          ++ [.tableSeq (print_tableSeq (bench_1w W MAX_SIZE_BITS seq0 m).2 MAX_SIZE_BITS)]
          ++ [.free m.next]
          ++ newEvents (bench_1w W MAX_SIZE_BITS seq0 m).1
              (bench_Nw W MAX_SIZE_BITS par0 (bench_1w W MAX_SIZE_BITS seq0 m).1).1)) = [] := by
    simp only [capStores_append, capStores_sizeEvents, capStores_bench_Nw]
    rfl
  have hpre : capStores ([.malloc m.next (toU64 (shl1 MAX_SIZE_BITS))]
          ++ sizeEvents W .SHA256 [m.next] .stack m.cap m.calls MAX_SIZE_BITS) = [] := by
    simp only [capStores_append, capStores_sizeEvents]
    rfl
  refine ⟨?_, ⟨_, _, hmain, hpre, hpost, ?_, ?_, ?_⟩, ?_, ?_⟩
  · rw [hmain, capStores_append, capStores_append, hpre, hpost]
    rfl
  · rw [timedCalls_append, timedCalls_sizeEvents]
    simp only [timedCalls, List.nil_append, List.map_map]
    rfl
  · rw [timedCalls_append, timedCalls_sizeEvents, List.take_left']
    · rw [List.map_map]; rfl
    · simp
  · intro c hc
    rw [timedCalls_append, timedCalls_append, timedCalls_append, timedCalls_append,
      timedCalls_sizeEvents, timedCalls_sizeEvents, timed_bench_Nw] at hc
    simp only [timedCalls, List.append_nil, List.mem_append, List.mem_map] at hc
    rcases hc with ⟨i, _, rfl⟩ | ⟨i, _, rfl⟩ | ((hc | hc) | hc) | hc
    · rfl
    · rfl
    · rw [colTimed_cap _ _ _ _ _ c hc, hcap1]
    · rw [colTimed_cap _ _ _ _ _ c hc, hcap1]
    · rw [colTimed_cap _ _ _ _ _ c hc, hcap1]
    · rw [colTimed_cap _ _ _ _ _ c hc, hcap1]
  · show (bench_Nw W MAX_SIZE_BITS par0 (bench_1w W MAX_SIZE_BITS seq0 m).1).1.cap = _
    rw [bench_Nw_cap, hcap1]
  · rw [Nat.testBit_and]
    have : Nat.testBit 0x10000000 29 = false := by decide
    rw [this, Bool.and_false]

/-- C10. In `bench_1w` over `n ≤ 31` sizes, for every row `i < n`: timed call number `i` is
the first baseline pass (run with the initial capability word) and timed call number
`n + i` is the second (run with the altered word) at length `2^i`; the `openssl` field that
`print_tableSeq` reads is the cycle count of the second; the table does not depend on what
the first pass measured (two worlds that agree from timed call `n` on give the same
printed table); the second pass leaves `size` and `shani` of the row as the first pass left
them; and in the printed row `size = 2^i` and `shani` is the cycle count of timed call
`2n + i`, the accelerated pass. -/
theorem C10_second_baseline (W W2 : World) (n : ℕ) (hn : n ≤ 31) (t : ℕ → seqTimings)
    (m : Machine) (hagree : ∀ k c, m.calls + n ≤ k → W.cycles k c = W2.cycles k c)
    (i : ℕ) (hi : i < n) :
    (∃ c, (timedCalls (newEvents m (bench_1w W n t m).1))[i]? = some c ∧
      c.1.func = .SHA256 ∧ c.1.cap = m.cap) ∧
    (∃ c, (timedCalls (newEvents m (bench_1w W n t m).1))[n + i]? = some c ∧
      c.1.func = .SHA256 ∧ c.1.cap = m.cap &&& 0x10000000 ∧ c.1.message_size = 2 ^ i ∧
      ((bench_1w W n t m).2 i).openssl = toU64 c.2) ∧
    (∃ c, (timedCalls (newEvents m (bench_1w W n t m).1))[n + n + i]? = some c ∧
      c.1.func = .sha256_update_shani ∧ ((bench_1w W n t m).2 i).shani = toU64 c.2) ∧
    ((bench_1w W n t m).2 i).size = 2 ^ i ∧
    print_tableSeq (bench_1w W n t m).2 n = print_tableSeq (bench_1w W2 n t m).2 n ∧
    (let a := _mm_malloc (toU64 (shl1 n)) m
     let s1 := BENCH_SIZE_1W W n .SHA256 a.1 seqTimings.setSize seqTimings.setOpenssl (a.2, t)
     let s2 := BENCH_SIZE_1W W n .SHA256 a.1 seqTimings.setSize seqTimings.setOpenssl
       (disableShani s1.1, s1.2)
     (s2.2 i).size = (s1.2 i).size ∧ (s2.2 i).shani = (s1.2 i).shani) := by
  have hi30 : i ≤ 30 := by omega
  have hrow := bench_1w_snd W n t m i
  rw [if_pos hi] at hrow
  refine ⟨?_, ?_, ?_, ?_, ?_, ?_⟩
  · refine ⟨(sizeCall .SHA256 [m.next] .stack m.cap i,
        W.cycles (m.calls + i) (sizeCall .SHA256 [m.next] .stack m.cap i)), ?_, rfl, rfl⟩
    rw [timed_bench_1w, List.getElem?_append_left (by simpa using hi)]
    exact getElem?_map_range _ n i hi
  · refine ⟨(sizeCall .SHA256 [m.next] .stack (m.cap &&& 0x10000000) i,
        W.cycles (m.calls + n + i)
          (sizeCall .SHA256 [m.next] .stack (m.cap &&& 0x10000000) i)),
      ?_, rfl, rfl, shl1_eq i hi30, ?_⟩
    · rw [timed_bench_1w, List.getElem?_append_right (by simp), List.length_map,
        List.length_range, Nat.add_sub_cancel_left,
        List.getElem?_append_left (by simpa using hi)]
      exact getElem?_map_range _ n i hi
    · rw [hrow]
  · refine ⟨(sizeCall .sha256_update_shani [m.next] .stack (m.cap &&& 0x10000000) i,
        W.cycles (m.calls + n + n + i)
          (sizeCall .sha256_update_shani [m.next] .stack (m.cap &&& 0x10000000) i)),
      ?_, rfl, ?_⟩
    · rw [timed_bench_1w, List.getElem?_append_right (by simp; omega), List.length_map,
        List.length_range, List.getElem?_append_right (by simp; omega), List.length_map,
        List.length_range]
      have : n + n + i - n - n = i := by omega
      rw [this]
      exact getElem?_map_range _ n i hi
    · rw [hrow]
  · rw [hrow]
    exact toU64_shl1 i hi30
  · unfold print_tableSeq
    apply List.map_congr_left
    intro j hj
    have hj' := List.mem_range.1 hj
    rw [bench_1w_snd, bench_1w_snd, if_pos hj', if_pos hj',
      hagree (m.calls + n + j) _ (by omega), hagree (m.calls + n + n + j) _ (by omega)]
  · intro a s1 s2
    simp only [s2, s1, a, BENCH_SIZE_1W_eq, disableShani, if_pos hi, seqTimings.setSize,
      seqTimings.setOpenssl]
    exact ⟨trivial, trivial⟩

/-- Witness for C10: the configured seven sizes, row 0 and two worlds that differ in the
first pass only meet the hypotheses. -/
theorem C10_second_baseline_witness :
    print_tableSeq (bench_1w scenarioWorld MAX_SIZE_BITS (fun _ => ⟨0, 0, 0⟩)
        (Machine.start 0)).2 MAX_SIZE_BITS
      = print_tableSeq (bench_1w
          ⟨fun k c => if k < 7 then 12345 else scenarioWorld.cycles k c⟩ MAX_SIZE_BITS
          (fun _ => ⟨0, 0, 0⟩) (Machine.start 0)).2 MAX_SIZE_BITS :=
  (C10_second_baseline scenarioWorld
    ⟨fun k c => if k < 7 then 12345 else scenarioWorld.cycles k c⟩ MAX_SIZE_BITS (by decide)
    (fun _ => ⟨0, 0, 0⟩) (Machine.start 0)
    (fun k c hk => by
      have h7 : ¬ k < 7 := by
        have : (0 : ℕ) + 7 ≤ k := hk
        omega
      simp only [h7, if_false])
    0 (by decide)).2.2.2.2.1

/-- C6 fails in `bench_Nw`. From the start state, `bench_1w` returns with no buffer
allocated and not freed, but `bench_Nw` returns with one: the message buffer of its `1x`
pass (buffer 0, allocated first) is never released; after `main` that buffer (then
buffer 1) is still allocated. -/
theorem C6_bench_Nw_leak (W : World) (seq0 : ℕ → seqTimings) (par0 : ℕ → parallelTimings)
    (w : ℕ) :
    (bench_1w W MAX_SIZE_BITS seq0 (Machine.start w)).1.live = [] ∧
    (bench_Nw W MAX_SIZE_BITS par0 (Machine.start w)).1.live = [0] ∧
    (main W seq0 par0 (Machine.start w)).live = [1] := by
  have h1 := bench_1w_live W MAX_SIZE_BITS seq0 _ (Machine.start_wf w)
  have hwf1 : (bench_1w W MAX_SIZE_BITS seq0 (Machine.start w)).1.wf := by
    intro p hp
    rw [h1] at hp
    simp [Machine.start] at hp
  have hnext : (bench_1w W MAX_SIZE_BITS seq0 (Machine.start w)).1.next = 1 :=
    congrArg Machine.next (bench_1w_fst W MAX_SIZE_BITS seq0 (Machine.start w))
  refine ⟨h1, bench_Nw_live W MAX_SIZE_BITS par0 _ (Machine.start_wf w), ?_⟩
  show (bench_Nw W MAX_SIZE_BITS par0 _).1.live = _
  rw [bench_Nw_live W MAX_SIZE_BITS par0 _ hwf1, h1, hnext]
  rfl

/-- C8 fails for the single shared message buffer. From the start state, every timed call
of `bench_1w` is handed buffer 0 as its message, and `bench_1w` never calls `random_bytes`;
in `bench_Nw` the seven timed calls of the `1x` pass are handed buffer 0, and the only
buffers `random_bytes` fills are the fourteen of the `2x`, `4x` and `8x` passes. -/
theorem C8_message_unfilled (W : World) (seq0 : ℕ → seqTimings) (par0 : ℕ → parallelTimings)
    (w : ℕ) :
    (timedCalls (newEvents (Machine.start w)
        (bench_1w W MAX_SIZE_BITS seq0 (Machine.start w)).1)).map (fun c => c.1.message)
      = List.replicate 21 [0] ∧
    fills (newEvents (Machine.start w)
        (bench_1w W MAX_SIZE_BITS seq0 (Machine.start w)).1) = [] ∧
    ((timedCalls (newEvents (Machine.start w)
        (bench_Nw W MAX_SIZE_BITS par0 (Machine.start w)).1)).take 7).map
          (fun c => c.1.message)
      = List.replicate 7 [0] ∧
    (fills (newEvents (Machine.start w)
        (bench_Nw W MAX_SIZE_BITS par0 (Machine.start w)).1)).map Prod.fst
      = [1, 3, 5, 7, 9, 11, 13, 15, 17, 19, 21, 23, 25, 27] := by
  refine ⟨?_, fills_bench_1w _ _ _ _, ?_, ?_⟩
  · rw [timed_bench_1w]
    simp only [List.map_append, List.map_map]
    rfl
  · rw [timed_bench_Nw, List.append_assoc, List.append_assoc, List.take_left']
    · simp only [colTimed, List.map_map]
      rfl
    · simp [colTimed, MAX_SIZE_BITS]
  · rw [fills_bench_Nw, List.map_map]
    rfl

end Bench
